import Mathlib

set_option maxHeartbeats 1000000
set_option maxRecDepth 100000

/-! Verification of the PPM (P6) decoder of V-Fries/image-parser-rs.

The development shallowly embeds `src/image.rs` and `src/ppm.rs`:
bytes are `Nat` values (0..255), byte buffers are `List Nat`, `usize`
arithmetic is `Nat` with explicit `2 ^ 64` overflow checks, and the `f64`
rescaling arithmetic is modelled as exact binary64 round-to-nearest-even
computation on `ℚ`. -/

/-- `image.rs`: `DEFAULT_ALPHA_VALUE`. -/
def DEFAULT_ALPHA_VALUE : Nat := 0

/-- `image.rs`: the four 8-bit channel values of `Rgba`. -/
structure Rgba where
  r : Nat
  g : Nat
  b : Nat
  a : Nat
deriving DecidableEq, Repr

/-- `image.rs`: `Pixel`.  The decoder only ever builds and reads pixels
through the `rgba` view; for such pixels the packed-`u32` equality used by
Rust's `PartialEq` coincides with channel-wise equality, so the union is
modelled by its `Rgba` view. -/
structure Pixel where
  rgba : Rgba
deriving DecidableEq, Repr

/-- `image.rs`: `Image` (pixel buffer plus geometry). -/
structure Image where
  data : List Pixel
  width : Nat
  height : Nat
deriving DecidableEq, Repr

/-- `image.rs`: `Image::new`.  The Rust constructor asserts
`width * height == data.len()`; every parser call site satisfies the
assertion (proved below for claim C4), so it is modelled as plain record
construction. -/
def Image.new (width height : Nat) (data : List Pixel) : Image :=
  ⟨data, width, height⟩

/-- `ppm.rs`: `ImagesFromPpmFileError`.  The Rust payloads (`std::io::Error`,
`Utf8Error`, `ParseIntError`, `TryReserveError`) do not influence the parse
logic and are dropped. -/
inductive ImagesFromPpmFileError where
  | FailedToOpenFile
  | FailedToReadFile
  | FormatNotFound
  | NoWhitespaceAfterFormat
  | FormatNotSupported
  | WidthNotFound
  | NoWhitespaceAfterWidth
  | WidthIsNotAUtf8String
  | WidthIsNotAUsize
  | HeightNotFound
  | NoWhitespaceAfterHeight
  | HeightIsNotAUtf8String
  | HeightIsNotAUsize
  | WidthMulHeightOverflowsUsize
  | SizeMulColorByteCountOverflows
  | MaxvalNotFound
  | NoWhitespaceAfterMaxval
  | MaxvalIsNotAUtf8String
  | MaxvalIsNotAU16
  | MaxvalCantBe0
  | FailedToAllocateImageData
  | LessThanSizePixelsFoundInFile
deriving DecidableEq, Repr

/-- `ppm.rs`: the predicate `(elem as char).is_whitespace()` applied to a
byte.  A `u8` cast to `char` yields the Latin-1 code point of the same value,
and `char::is_whitespace` holds exactly for 0x09-0x0D, 0x20, 0x85 and 0xA0
among those. -/
def is_ws (b : Nat) : Bool :=
  b == 9 || b == 10 || b == 11 || b == 12 || b == 13 || b == 32 ||
    b == 133 || b == 160

/-- `ppm.rs`: `find_index(slice, skip, find_op)` - the first index `>= skip`
whose byte satisfies the predicate. -/
def find_index (l : List Nat) (skip : Nat) (p : Nat → Bool) : Option Nat :=
  match l, skip with
  | [], _ => none
  | b :: rest, 0 => if p b then some 0 else (find_index rest 0 p).map (· + 1)
  | _ :: rest, skip + 1 => (find_index rest skip p).map (· + 1)

/-- The `while slice[skip] == b'#'` loop of `ppm.rs::get_content_start_index`,
rotated so each iteration first locates the next non-whitespace byte and then
checks for `#`.  The fuel argument makes the recursion structural; the
scanning position strictly increases each iteration, so fuel `l.length + 1`
never runs out. -/
def get_content_start_loop (l : List Nat) : Nat → Nat → Option Nat
  | _, 0 => none
  | skip, fuel + 1 =>
    match find_index l skip (fun b => !is_ws b) with
    | none => none
    | some i =>
      if l.getD i 0 == 35 then
        match find_index l (i + 1) (fun b => b == 10) with
        | none => none
        | some j => get_content_start_loop l (j + 1) fuel
      else some i

/-- `ppm.rs`: `get_content_start_index(slice, skip)`. -/
def get_content_start_index (l : List Nat) (skip : Nat) : Option Nat :=
  get_content_start_loop l skip (l.length + 1)

/-- `ppm.rs`: `get_content_end_index(slice, skip)`. -/
def get_content_end_index (l : List Nat) (skip : Nat) : Option Nat :=
  find_index l skip (fun b => is_ws b || b == 35)

/-- Rust slicing `buf[s..e]` on byte buffers. -/
def byte_slice (l : List Nat) (s e : Nat) : List Nat :=
  (l.drop s).take (e - s)

/-- Number of binary digits of `n` (`0` for `n = 0`), with structural fuel;
`n + 1` units of fuel always suffice. -/
def bitlen_fuel : Nat → Nat → Nat
  | 0, _ => 0
  | fuel + 1, n => if n = 0 then 0 else bitlen_fuel fuel (n / 2) + 1

/-- Number of binary digits of `n`. -/
def bitlen (n : Nat) : Nat := bitlen_fuel (n + 1) n

/-- Round the fraction `p / q` (`q ≠ 0`) to the nearest integer, ties to
even: the significand rounding of IEEE-754 binary64 arithmetic. -/
def rhe (p q : Nat) : Nat :=
  let d := p / q
  let r := p % q
  if 2 * r < q then d
  else if q < 2 * r then d + 1
  else if d % 2 = 0 then d else d + 1

/-- The binary exponent of `a / b` for `a, b ≥ 1`: the unique `e : ℤ` with
`2 ^ e ≤ a / b < 2 ^ (e + 1)` (proved below as `qexp_le` and `lt_qexp`). -/
def qexp (a b : Nat) : Int :=
  if bitlen b ≤ bitlen a then
    let d := bitlen a - bitlen b
    if b * 2 ^ d ≤ a then (d : Int) else (d : Int) - 1
  else
    let d := bitlen b - bitlen a
    if b ≤ a * 2 ^ d then -(d : Int) else -(d : Int) - 1

/-- The IEEE-754 binary64 number nearest to `a / b` (`a, b ≥ 1`, ties to
even), represented as a significand/exponent pair `(n, e)` of value
`n * 2 ^ (e - 52)`.  Exponents are unbounded, which agrees with hardware
`f64` on the normal range; every value arising in the decoder's rescaling
lies well inside it. -/
def roundPair (a b : Nat) : Nat × Int :=
  let e := qexp a b
  if e ≤ 52 then (rhe (a * 2 ^ (52 - e).toNat) b, e)
  else (rhe a (b * 2 ^ (e - 52).toNat), e)

/-- Rust `as u8` applied to a non-negative finite `f64` value
`n * 2 ^ (e - 52)`: truncation toward zero, saturating into `0..=255`. -/
def pair_to_u8 (n : Nat) (e : Int) : Nat :=
  min 255 (if 52 ≤ e then n * 2 ^ (e - 52).toNat else n / 2 ^ (52 - e).toNat)

/-- The computation shared by `ppm.rs::convert_u8_maxval_color` and
`ppm.rs::convert_u16_maxval_color`:
`((color as f64) / (maxval as f64) * 255.) as u8`, with the `f64` division
and multiplication modelled as exactly rounded binary64 operations on
significand/exponent pairs.  `color = 0` divides to exactly `0.0`, which
multiplies to `0.0` and casts to `0`.  For `maxval = 0` Rust's division
yields `inf` (or `NaN` when `color = 0` too) and the cast saturates to `255`
(resp. goes to `0`). -/
def rescale (color maxval : Nat) : Nat :=
  if maxval = 0 then (if color = 0 then 0 else 255)
  else if color = 0 then 0
  else
    let d := roundPair color maxval
    let p :=
      if 52 ≤ d.2 then roundPair (255 * d.1 * 2 ^ (d.2 - 52).toNat) 1
      else roundPair (255 * d.1) (2 ^ (52 - d.2).toNat)
    pair_to_u8 p.1 p.2

/-- `ppm.rs::convert_u8_maxval_color`. -/
def convert_u8_maxval_color (color maxval : Nat) : Nat := rescale color maxval

/-- `ppm.rs::convert_u16_maxval_color`. -/
def convert_u16_maxval_color (color maxval : Nat) : Nat := rescale color maxval

/-- `usize::MAX + 1` on the 64-bit targets the crate is built for. -/
def usizeBound : Nat := 2 ^ 64

/-- `isize::MAX` on the 64-bit targets the crate is built for: the largest
byte count a single Rust allocation may request. -/
def isizeMax : Nat := 2 ^ 63 - 1

/-- Rust `a.checked_mul(b)` at type `usize`. -/
def checked_mul (a b : Nat) : Option Nat :=
  if a * b < usizeBound then some (a * b) else none

/-- `decide` of a byte range membership, used by the UTF-8 validator. -/
def between (lo b hi : Nat) : Bool := decide (lo ≤ b ∧ b ≤ hi)

/-- Validity of a byte sequence as UTF-8 (`str::from_utf8` succeeds): the
standard well-formed byte-sequence table of the Unicode standard. -/
def valid_utf8 : List Nat → Bool
  | [] => true
  | b :: rest =>
    if b < 128 then valid_utf8 rest
    else if between 194 b 223 then
      match rest with
      | c1 :: rest1 => between 128 c1 191 && valid_utf8 rest1
      | [] => false
    else if b == 224 then
      match rest with
      | c1 :: c2 :: rest2 =>
        between 160 c1 191 && between 128 c2 191 && valid_utf8 rest2
      | _ => false
    else if between 225 b 236 then
      match rest with
      | c1 :: c2 :: rest2 =>
        between 128 c1 191 && between 128 c2 191 && valid_utf8 rest2
      | _ => false
    else if b == 237 then
      match rest with
      | c1 :: c2 :: rest2 =>
        between 128 c1 159 && between 128 c2 191 && valid_utf8 rest2
      | _ => false
    else if between 238 b 239 then
      match rest with
      | c1 :: c2 :: rest2 =>
        between 128 c1 191 && between 128 c2 191 && valid_utf8 rest2
      | _ => false
    else if b == 240 then
      match rest with
      | c1 :: c2 :: c3 :: rest3 =>
        between 144 c1 191 && between 128 c2 191 && between 128 c3 191 &&
          valid_utf8 rest3
      | _ => false
    else if between 241 b 243 then
      match rest with
      | c1 :: c2 :: c3 :: rest3 =>
        between 128 c1 191 && between 128 c2 191 && between 128 c3 191 &&
          valid_utf8 rest3
      | _ => false
    else if b == 244 then
      match rest with
      | c1 :: c2 :: c3 :: rest3 =>
        between 128 c1 143 && between 128 c2 191 && between 128 c3 191 &&
          valid_utf8 rest3
      | _ => false
    else false

/-- Decimal accumulation of Rust's unsigned `from_str`: `none` on the first
non-digit byte. -/
def digits_value : List Nat → Nat → Option Nat
  | [], acc => some acc
  | b :: rest, acc =>
    if 48 ≤ b ∧ b ≤ 57 then digits_value rest (acc * 10 + (b - 48)) else none

/-- How a header token fails to be a number: `str::from_utf8` failure versus
`FromStr` failure (empty token, invalid digit, or overflow). -/
inductive TokenError where
  | notUtf8
  | notInt
deriving DecidableEq, Repr

/-- `str::from_utf8(token)?.parse::<uN>()` with `bound` the excluded upper
bound of the target type: an optional leading `+`, then one or more ASCII
digits whose value is below `bound`.  Rust checks overflow at every
accumulation step, which is equivalent to the final bound check because the
accumulated value never decreases. -/
def parse_unsigned (bytes : List Nat) (bound : Nat) : Except TokenError Nat :=
  if valid_utf8 bytes then
    match (match bytes with | 43 :: rest => rest | _ => bytes) with
    | [] => .error .notInt
    | ds =>
      match digits_value ds 0 with
      | none => .error .notInt
      | some v => if v < bound then .ok v else .error .notInt
  else .error .notUtf8

/-- The header part of `ppm.rs::parse_image` (lines 100-141): format token,
width, height, `size = width * height` with its overflow check, maxval with
its zero check, and finally `start = end + 1`, the index of the first pixel
byte.  Returns `(format token bytes, width, height, size, maxval, start)`.
The maxval terminator search uses the plain whitespace predicate, not
`get_content_end_index`, exactly as in the source. -/
def parse_header (fc : List Nat) :
    Except ImagesFromPpmFileError (List Nat × Nat × Nat × Nat × Nat × Nat) :=
  match get_content_start_index fc 0 with
  | none => .error .FormatNotFound
  | some s1 =>
  match get_content_end_index fc s1 with
  | none => .error .NoWhitespaceAfterFormat
  | some e1 =>
  match get_content_start_index fc e1 with
  | none => .error .WidthNotFound
  | some s2 =>
  match get_content_end_index fc s2 with
  | none => .error .NoWhitespaceAfterWidth
  | some e2 =>
  match parse_unsigned (byte_slice fc s2 e2) usizeBound with
  | .error .notUtf8 => .error .WidthIsNotAUtf8String
  | .error .notInt => .error .WidthIsNotAUsize
  | .ok width =>
  match get_content_start_index fc e2 with
  | none => .error .HeightNotFound
  | some s3 =>
  match get_content_end_index fc s3 with
  | none => .error .NoWhitespaceAfterHeight
  | some e3 =>
  match parse_unsigned (byte_slice fc s3 e3) usizeBound with
  | .error .notUtf8 => .error .HeightIsNotAUtf8String
  | .error .notInt => .error .HeightIsNotAUsize
  | .ok height =>
  match checked_mul width height with
  | none => .error .WidthMulHeightOverflowsUsize
  | some size =>
  match get_content_start_index fc e3 with
  | none => .error .MaxvalNotFound
  | some s4 =>
  match find_index fc s4 (fun b => is_ws b) with
  | none => .error .NoWhitespaceAfterMaxval
  | some e4 =>
  match parse_unsigned (byte_slice fc s4 e4) 65536 with
  | .error .notUtf8 => .error .MaxvalIsNotAUtf8String
  | .error .notInt => .error .MaxvalIsNotAU16
  | .ok maxval =>
  if maxval = 0 then .error .MaxvalCantBe0
  else .ok (byte_slice fc s1 e1, width, height, size, maxval, e4 + 1)

/-- `ppm.rs::read_image_from_u8_maxval`.  The Rust loop
`for i in (2..limit).step_by(3)` pushes one pixel for each `i = 3 * k + 2`
with `k = 0, ..., size - 1`, built from `raw[3k], raw[3k+1], raw[3k+2]`;
the preceding `raw.len() >= limit` check keeps every index in bounds, so
`getD` with default `0` reads exactly the same bytes. -/
def read_image_from_u8_maxval (raw : List Nat) (size maxval : Nat) :
    Except ImagesFromPpmFileError (Nat × List Pixel) :=
  match checked_mul size 3 with
  | none => .error .SizeMulColorByteCountOverflows
  | some limit =>
    if raw.length < limit then .error .LessThanSizePixelsFoundInFile
    else .ok (limit, (List.range size).map (fun k =>
      ⟨⟨convert_u8_maxval_color (raw.getD (3 * k) 0) maxval,
        convert_u8_maxval_color (raw.getD (3 * k + 1) 0) maxval,
        convert_u8_maxval_color (raw.getD (3 * k + 2) 0) maxval,
        DEFAULT_ALPHA_VALUE⟩⟩))

/-- `ppm.rs::read_image_from_u16_maxval`.  One pixel for each
`i = 6 * k + 5`, `k = 0, ..., size - 1`; each channel is two bytes,
big-endian (`raw[i-4] | raw[i-5] << 8` equals `low + 256 * high` since both
bytes are below 256). -/
def read_image_from_u16_maxval (raw : List Nat) (size maxval : Nat) :
    Except ImagesFromPpmFileError (Nat × List Pixel) :=
  match checked_mul size 6 with
  | none => .error .SizeMulColorByteCountOverflows
  | some limit =>
    if raw.length < limit then .error .LessThanSizePixelsFoundInFile
    else .ok (limit, (List.range size).map (fun k =>
      ⟨⟨convert_u16_maxval_color
          (raw.getD (6 * k + 1) 0 + 256 * raw.getD (6 * k) 0) maxval,
        convert_u16_maxval_color
          (raw.getD (6 * k + 3) 0 + 256 * raw.getD (6 * k + 2) 0) maxval,
        convert_u16_maxval_color
          (raw.getD (6 * k + 5) 0 + 256 * raw.getD (6 * k + 4) 0) maxval,
        DEFAULT_ALPHA_VALUE⟩⟩))

/-- `ppm.rs::read_image`.  `Vec::<Pixel>::try_reserve_exact(size)` requests
`size * 4` bytes (`Pixel` is 4 bytes, `#[repr(C)]` union of `u32` and four
`u8`); when that exceeds `isize::MAX` it fails deterministically with
`TryReserveErrorKind::CapacityOverflow`, which the `map_err` turns into
`FailedToAllocateImageData`.  Below that bound the reservation can only fail
if the operating system refuses the memory - a machine-dependent event
outside the embedding - so there it is modelled as succeeding. -/
def read_image (raw : List Nat) (width height size maxval : Nat) :
    Except ImagesFromPpmFileError (Nat × Image) :=
  if isizeMax < size * 4 then .error .FailedToAllocateImageData
  else if maxval < 256 then
    match read_image_from_u8_maxval raw size maxval with
    | .error e => .error e
    | .ok (n, pixels) => .ok (n, Image.new width height pixels)
  else
    match read_image_from_u16_maxval raw size maxval with
    | .error e => .error e
    | .ok (n, pixels) => .ok (n, Image.new width height pixels)

/-- `ppm.rs::parse_image`: the header, then the `match format` dispatch.  As
in the source, the format token is only compared against `b"P6"` after the
whole header has parsed successfully. -/
def parse_image (fc : List Nat) :
    Except ImagesFromPpmFileError (Nat × Image) :=
  match parse_header fc with
  | .error e => .error e
  | .ok (format, width, height, size, maxval, ds) =>
    if format = [80, 54] then
      match read_image (fc.drop ds) width height size maxval with
      | .error e => .error e
      | .ok (n, image) => .ok (ds + n, image)
    else .error .FormatNotSupported

/-- The `while cursor < file_content.len()` loop of
`ppm.rs::parse_ppm_file`, with explicit fuel.  The cursor strictly increases
on every iteration, so `fc.length + 1` units of fuel never run out (claim C9
below) and the `none` result is unreachable. -/
def parse_ppm_loop (fc : List Nat) : Nat → Nat → List Image →
    Option (Except ImagesFromPpmFileError (List Image))
  | 0, _, _ => none
  | fuel + 1, cursor, images =>
    if cursor < fc.length then
      match parse_image (fc.drop cursor) with
      | .error e => some (.error e)
      | .ok (n, image) =>
        match get_content_start_index fc (cursor + n) with
        | some i => parse_ppm_loop fc fuel i (images ++ [image])
        | none => some (.ok (images ++ [image]))
    else some (.ok images)

/-- `ppm.rs::parse_ppm_file`.  The `none` fallback is unreachable (claim C9);
it returns the same error as the empty-buffer check so the function stays
total. -/
def parse_ppm_file (fc : List Nat) :
    Except ImagesFromPpmFileError (List Image) :=
  if fc.isEmpty then .error .FormatNotFound
  else
    match parse_ppm_loop fc (fc.length + 1) 0 [] with
    | some r => r
    | none => .error .FormatNotFound

/-- `ppm.rs`: `TryFrom<PpmFilePath> for Image`, after the I/O boundary has
produced the buffer: the first image of a successful parse.  The outer `none`
models the `expect` panic branch taken on an empty successful list. -/
def ppm_first_image (fc : List Nat) :
    Option (Except ImagesFromPpmFileError Image) :=
  match parse_ppm_file fc with
  | .error e => some (.error e)
  | .ok images =>
    match images.head? with
    | some image => some (.ok image)
    | none => none

/-- The input class of claim C7: buffers made only of whitespace bytes and
`#`-to-end-of-line comment runs (a final comment may be unterminated).
`inComment` records whether the scan is currently inside a comment line. -/
def ws_comment_only (l : List Nat) (inComment : Bool) : Bool :=
  match l with
  | [] => true
  | b :: rest =>
    if inComment then
      if b == 10 then ws_comment_only rest false else ws_comment_only rest true
    else if is_ws b then ws_comment_only rest false
    else if b == 35 then ws_comment_only rest true
    else false

deriving instance DecidableEq for Except

/-! ### Tokenizer lemmas -/

theorem find_index_some {l : List Nat} {p : Nat → Bool} :
    ∀ {skip i : Nat}, find_index l skip p = some i →
      skip ≤ i ∧ i < l.length ∧ p (l.getD i 0) = true ∧
        ∀ j, skip ≤ j → j < i → p (l.getD j 0) = false := by
  induction l with
  | nil => intro skip i h; simp [find_index] at h
  | cons b rest ih =>
    intro skip i h
    match skip with
    | 0 =>
      simp only [find_index] at h
      by_cases hb : p b
      · simp only [hb, if_pos] at h
        cases h
        exact ⟨Nat.le_refl 0, Nat.succ_pos _, hb, fun j h1 h2 => absurd h2 (by omega)⟩
      · simp only [hb, if_neg, Bool.false_eq_true, not_false_iff] at h
        rcases Option.map_eq_some'.mp h with ⟨i', hi', rfl⟩
        rcases ih hi' with ⟨_, hlen, hp, hall⟩
        refine ⟨Nat.zero_le _, by simpa using hlen, by simpa using hp, ?_⟩
        intro j _ hj
        match j with
        | 0 => simpa using hb
        | j + 1 =>
          simp only [List.getD_cons_succ]
          exact hall j (Nat.zero_le _) (by omega)
    | skip + 1 =>
      simp only [find_index] at h
      rcases Option.map_eq_some'.mp h with ⟨i', hi', rfl⟩
      rcases ih hi' with ⟨hle, hlen, hp, hall⟩
      refine ⟨by omega, by simpa using hlen, by simpa using hp, ?_⟩
      intro j h1 hj
      match j with
      | 0 => omega
      | j + 1 =>
        simp only [List.getD_cons_succ]
        exact hall j (by omega) (by omega)

theorem find_index_none {l : List Nat} {p : Nat → Bool} :
    ∀ {skip : Nat}, find_index l skip p = none →
      ∀ j, skip ≤ j → j < l.length → p (l.getD j 0) = false := by
  induction l with
  | nil => intro skip _ j _ hj; simp at hj
  | cons b rest ih =>
    intro skip h j h1 hj
    match skip with
    | 0 =>
      simp only [find_index] at h
      by_cases hb : p b
      · simp [hb] at h
      · simp only [hb, if_neg, Bool.false_eq_true, not_false_iff,
          Option.map_eq_none'] at h
        match j with
        | 0 => simpa using hb
        | j + 1 =>
          simp only [List.getD_cons_succ]
          exact ih h j (Nat.zero_le _) (by simpa using hj)
    | skip + 1 =>
      simp only [find_index, Option.map_eq_none'] at h
      match j with
      | 0 => omega
      | j + 1 =>
        simp only [List.getD_cons_succ]
        exact ih h j (by omega) (by simpa using hj)

theorem find_index_none_of_le {l : List Nat} {p : Nat → Bool} :
    ∀ {skip : Nat}, l.length ≤ skip → find_index l skip p = none := by
  induction l with
  | nil => intro skip _; simp [find_index]
  | cons b rest ih =>
    intro skip h
    match skip with
    | 0 => simp at h
    | skip + 1 =>
      simp only [find_index, Option.map_eq_none']
      exact ih (by simpa using h)

theorem find_index_append {l l2 : List Nat} {p : Nat → Bool} :
    ∀ {skip i : Nat}, find_index l skip p = some i →
      find_index (l ++ l2) skip p = some i := by
  induction l with
  | nil => intro skip i h; simp [find_index] at h
  | cons b rest ih =>
    intro skip i h
    match skip with
    | 0 =>
      simp only [find_index, List.cons_append] at h ⊢
      by_cases hb : p b
      · simpa [hb] using h
      · simp only [hb, if_neg, Bool.false_eq_true, not_false_iff] at h ⊢
        rcases Option.map_eq_some'.mp h with ⟨i', hi', rfl⟩
        simp only [List.append_eq]
        rw [ih hi']
        rfl
    | skip + 1 =>
      simp only [find_index, List.cons_append] at h ⊢
      rcases Option.map_eq_some'.mp h with ⟨i', hi', rfl⟩
      simp only [List.append_eq]
      rw [ih hi']
      rfl

theorem find_index_shift {l2 : List Nat} {p : Nat → Bool} :
    ∀ (l1 : List Nat) (k : Nat),
      find_index (l1 ++ l2) (l1.length + k) p =
        (find_index l2 k p).map (l1.length + ·) := by
  intro l1
  induction l1 with
  | nil =>
    intro k
    simp only [List.nil_append, List.length_nil, Nat.zero_add]
    cases find_index l2 k p <;> simp
  | cons b rest ih =>
    intro k
    have : (b :: rest).length + k = (rest.length + k) + 1 := by
      simp [List.length_cons]; omega
    rw [this]
    show (find_index (rest ++ l2) (rest.length + k) p).map (· + 1) = _
    rw [ih k]
    cases find_index l2 k p
    · simp [List.length_cons]
    · simp [List.length_cons]
      omega

theorem drop_eq_getD_cons {l : List Nat} {k : Nat} (h : k < l.length) :
    l.drop k = l.getD k 0 :: l.drop (k + 1) := by
  rw [List.drop_eq_getElem_cons h]
  congr 1
  simp [List.getD_eq_getElem?_getD, List.getElem?_eq_getElem h]

theorem gcs_loop_some {l : List Nat} :
    ∀ {fuel skip i : Nat}, get_content_start_loop l skip fuel = some i →
      skip ≤ i ∧ i < l.length ∧ is_ws (l.getD i 0) = false ∧
        (l.getD i 0 == 35) = false := by
  intro fuel
  induction fuel with
  | zero => intro skip i h; simp [get_content_start_loop] at h
  | succ fuel ih =>
    intro skip i h
    simp only [get_content_start_loop] at h
    split at h
    · exact absurd h (by simp)
    · rename_i i1 hf
      rcases find_index_some hf with ⟨h1, h2, h3, _⟩
      split at h
      · rename_i h35
        split at h
        · exact absurd h (by simp)
        · rename_i j hn
          rcases find_index_some hn with ⟨hj1, _, _, _⟩
          rcases ih h with ⟨ha, hb, hc, hd⟩
          exact ⟨by omega, hb, hc, hd⟩
      · rename_i h35
        cases h
        refine ⟨h1, h2, ?_, by simpa using h35⟩
        simpa using h3

theorem gcs_loop_append {l l2 : List Nat} :
    ∀ {fuel skip i : Nat}, get_content_start_loop l skip fuel = some i →
      ∀ {fuel' : Nat}, fuel ≤ fuel' →
        get_content_start_loop (l ++ l2) skip fuel' = some i := by
  intro fuel
  induction fuel with
  | zero => intro skip i h; simp [get_content_start_loop] at h
  | succ fuel ih =>
    intro skip i h fuel' hle
    match fuel', hle with
    | fuel' + 1, hle =>
      simp only [get_content_start_loop] at h ⊢
      split at h
      · exact absurd h (by simp)
      · rename_i i1 hf
        rcases find_index_some hf with ⟨_, h2, _, _⟩
        rw [find_index_append hf]
        dsimp only
        have hg : (l ++ l2).getD i1 0 = l.getD i1 0 := by
          simp [List.getD_eq_getElem?_getD, List.getElem?_append_left h2]
        rw [hg]
        split at h
        · rename_i h35
          rw [if_pos h35]
          split at h
          · exact absurd h (by simp)
          · rename_i j hn
            rw [find_index_append hn]
            exact ih h (by omega)
        · rename_i h35
          rw [if_neg h35]
          exact h

theorem gcs_loop_none_of_le {l : List Nat} {fuel skip : Nat}
    (h : l.length ≤ skip) : get_content_start_loop l skip fuel = none := by
  cases fuel with
  | zero => simp [get_content_start_loop]
  | succ fuel =>
    simp only [get_content_start_loop]
    rw [find_index_none_of_le h]

theorem gcs_loop_shift {l1 l2 : List Nat} :
    ∀ {fuel k : Nat},
      get_content_start_loop (l1 ++ l2) (l1.length + k) fuel =
        (get_content_start_loop l2 k fuel).map (l1.length + ·) := by
  intro fuel
  induction fuel with
  | zero => intro k; simp [get_content_start_loop]
  | succ fuel ih =>
    intro k
    simp only [get_content_start_loop]
    rw [find_index_shift l1 k]
    cases hf : find_index l2 k (fun b => !is_ws b) with
    | none => simp
    | some i1 =>
      rcases find_index_some hf with ⟨_, h2, _, _⟩
      simp only [Option.map_some']
      have hg : (l1 ++ l2).getD (l1.length + i1) 0 = l2.getD i1 0 := by
        simp [List.getD_eq_getElem?_getD, List.getElem?_append_right
          (Nat.le_add_right _ _), Nat.add_sub_cancel_left]
      rw [hg]
      by_cases h35 : (l2.getD i1 0 == 35) = true
      · rw [if_pos h35, if_pos h35]
        have hshift : l1.length + i1 + 1 = l1.length + (i1 + 1) := by omega
        rw [hshift, find_index_shift l1 (i1 + 1)]
        cases hn : find_index l2 (i1 + 1) (fun b => b == 10) with
        | none => simp
        | some j =>
          simp only [Option.map_some']
          have hshift2 : l1.length + j + 1 = l1.length + (j + 1) := by omega
          rw [hshift2]
          exact ih
      · rw [if_neg h35, if_neg h35]
        rfl

theorem wsco_walk_ws {l : List Nat} :
    ∀ (n : Nat) (skip : Nat),
      ws_comment_only (l.drop skip) false = true →
      skip + n ≤ l.length →
      (∀ j, skip ≤ j → j < skip + n → is_ws (l.getD j 0) = true) →
      ws_comment_only (l.drop (skip + n)) false = true := by
  intro n
  induction n with
  | zero => intro skip h _ _; simpa using h
  | succ n ih =>
    intro skip h hlen hall
    have hk : skip < l.length := by omega
    have hws := hall skip (Nat.le_refl _) (by omega)
    rw [drop_eq_getD_cons hk] at h
    rw [ws_comment_only] at h
    simp only [Bool.false_eq_true, if_neg, hws, if_pos, not_false_iff] at h
    have hstep := ih (skip + 1) h (by omega)
      (fun j h1 h2 => hall j (by omega) (by omega))
    have : skip + 1 + n = skip + (n + 1) := by omega
    rwa [this] at hstep

theorem wsco_walk_comment {l : List Nat} :
    ∀ (n : Nat) (skip : Nat),
      ws_comment_only (l.drop skip) true = true →
      skip + n ≤ l.length →
      (∀ j, skip ≤ j → j < skip + n → (l.getD j 0 == 10) = false) →
      ws_comment_only (l.drop (skip + n)) true = true := by
  intro n
  induction n with
  | zero => intro skip h _ _; simpa using h
  | succ n ih =>
    intro skip h hlen hall
    have hk : skip < l.length := by omega
    have hnl := hall skip (Nat.le_refl _) (by omega)
    rw [drop_eq_getD_cons hk] at h
    rw [ws_comment_only] at h
    simp only [if_pos, hnl, Bool.false_eq_true, if_neg, not_false_iff] at h
    have hstep := ih (skip + 1) h (by omega)
      (fun j h1 h2 => hall j (by omega) (by omega))
    have : skip + 1 + n = skip + (n + 1) := by omega
    rwa [this] at hstep

theorem gcs_loop_none_of_wsco {l : List Nat} :
    ∀ {fuel skip : Nat}, ws_comment_only (l.drop skip) false = true →
      get_content_start_loop l skip fuel = none := by
  intro fuel
  induction fuel with
  | zero => intro skip _; simp [get_content_start_loop]
  | succ fuel ih =>
    intro skip h
    simp only [get_content_start_loop]
    cases hf : find_index l skip (fun b => !is_ws b) with
    | none => rfl
    | some i =>
      rcases find_index_some hf with ⟨h1, h2, h3, hall⟩
      -- walk the whitespace up to position i
      have hwalk : ws_comment_only (l.drop i) false = true := by
        have := wsco_walk_ws (l := l) (i - skip) skip h (by omega) ?_
        · have heq : skip + (i - skip) = i := by omega
          rwa [heq] at this
        · intro j hj1 hj2
          have := hall j hj1 (by omega)
          simpa using this
      -- at position i the byte is not whitespace, so it must open a comment
      rw [drop_eq_getD_cons h2] at hwalk
      rw [ws_comment_only] at hwalk
      have hnw : is_ws (l.getD i 0) = false := by simpa using h3
      simp only [hnw, Bool.false_eq_true, if_neg, not_false_iff] at hwalk
      dsimp only
      by_cases h35 : (l.getD i 0 == 35) = true
      · rw [if_pos h35]
        rw [if_pos h35] at hwalk
        -- hwalk : in-comment from i + 1
        cases hn : find_index l (i + 1) (fun b => b == 10) with
        | none => rfl
        | some j =>
          rcases find_index_some hn with ⟨hj1, hj2, hj3, hjall⟩
          -- walk the comment up to the newline at j
          have hwalk2 : ws_comment_only (l.drop j) true = true := by
            have := wsco_walk_comment (l := l) (j - (i + 1)) (i + 1) hwalk
              (by omega) ?_
            · have heq : i + 1 + (j - (i + 1)) = j := by omega
              rwa [heq] at this
            · intro t ht1 ht2
              exact hjall t ht1 (by omega)
          rw [drop_eq_getD_cons hj2] at hwalk2
          rw [ws_comment_only] at hwalk2
          rw [if_pos hj3] at hwalk2
          show get_content_start_loop l (j + 1) fuel = none
          exact ih hwalk2
      · -- a non-whitespace, non-comment byte contradicts ws_comment_only
        rw [if_neg h35] at hwalk
        exact absurd hwalk (by simp)

theorem gcs_fuel_mono {l : List Nat} {fuel fuel' skip i : Nat}
    (h : get_content_start_loop l skip fuel = some i) (hle : fuel ≤ fuel') :
    get_content_start_loop l skip fuel' = some i := by
  have := @gcs_loop_append _ [] _ _ _ h _ hle
  simpa using this

theorem gcs_some {l : List Nat} {skip i : Nat}
    (h : get_content_start_index l skip = some i) :
    skip ≤ i ∧ i < l.length ∧ is_ws (l.getD i 0) = false ∧
      (l.getD i 0 == 35) = false :=
  gcs_loop_some h

theorem gcs_append {l l2 : List Nat} {skip i : Nat}
    (h : get_content_start_index l skip = some i) :
    get_content_start_index (l ++ l2) skip = some i := by
  unfold get_content_start_index at h ⊢
  exact gcs_loop_append h (by simp)

theorem gcs_none_of_le {l : List Nat} {skip : Nat} (h : l.length ≤ skip) :
    get_content_start_index l skip = none :=
  gcs_loop_none_of_le h

theorem gce_some {l : List Nat} {skip i : Nat}
    (h : get_content_end_index l skip = some i) :
    skip ≤ i ∧ i < l.length :=
  ⟨(find_index_some h).1, (find_index_some h).2.1⟩

theorem gce_append {l l2 : List Nat} {skip i : Nat}
    (h : get_content_end_index l skip = some i) :
    get_content_end_index (l ++ l2) skip = some i :=
  find_index_append h

theorem byte_slice_append {l l2 : List Nat} {s e : Nat} (he : e ≤ l.length) :
    byte_slice (l ++ l2) s e = byte_slice l s e := by
  unfold byte_slice
  by_cases hs : s ≤ l.length
  · rw [List.drop_append_eq_append_drop, List.take_append_eq_append_take]
    have h1 : e - s - (l.drop s).length = 0 := by
      simp only [List.length_drop]
      omega
    rw [h1]
    simp
  · have h0 : e - s = 0 := by omega
    simp [h0]

theorem getD_append_left {l l2 : List Nat} {i : Nat} (h : i < l.length) :
    (l ++ l2).getD i 0 = l.getD i 0 := by
  simp [List.getD_eq_getElem?_getD, List.getElem?_append_left h]

theorem parse_unsigned_ok_lt {bytes : List Nat} {bound v : Nat}
    (h : parse_unsigned bytes bound = .ok v) : v < bound := by
  unfold parse_unsigned at h
  split at h
  · split at h
    · exact Except.noConfusion h
    · split at h
      · exact Except.noConfusion h
      · split at h
        · cases h; assumption
        · exact Except.noConfusion h
  · exact Except.noConfusion h

theorem parse_header_ok {fc fmt : List Nat} {w h size mv ds : Nat}
    (hp : parse_header fc = .ok (fmt, w, h, size, mv, ds)) :
    1 ≤ ds ∧ ds ≤ fc.length ∧ size = w * h ∧ w * h < usizeBound ∧
      1 ≤ mv ∧ mv < 65536 := by
  unfold parse_header at hp
  split at hp
  · exact Except.noConfusion hp
  rename_i s1 hs1
  split at hp
  · exact Except.noConfusion hp
  rename_i e1 he1
  split at hp
  · exact Except.noConfusion hp
  rename_i s2 hs2
  split at hp
  · exact Except.noConfusion hp
  rename_i e2 he2
  split at hp
  · exact Except.noConfusion hp
  · exact Except.noConfusion hp
  rename_i width hw
  split at hp
  · exact Except.noConfusion hp
  rename_i s3 hs3
  split at hp
  · exact Except.noConfusion hp
  rename_i e3 he3
  split at hp
  · exact Except.noConfusion hp
  · exact Except.noConfusion hp
  rename_i height hh
  split at hp
  · exact Except.noConfusion hp
  rename_i size' hsz
  split at hp
  · exact Except.noConfusion hp
  rename_i s4 hs4
  split at hp
  · exact Except.noConfusion hp
  rename_i e4 he4
  split at hp
  · exact Except.noConfusion hp
  · exact Except.noConfusion hp
  rename_i maxval hmv
  split at hp
  · exact Except.noConfusion hp
  rename_i hmv0
  injection hp with hp
  simp only [Prod.mk.injEq] at hp
  obtain ⟨hfmt, hww, hhh, hss, hmm, hdd⟩ := hp
  subst hww
  subst hhh
  subst hss
  subst hmm
  subst hdd
  have hlen : e4 < fc.length := (find_index_some he4).2.1
  unfold checked_mul at hsz
  split at hsz
  · rename_i hlt
    cases hsz
    exact ⟨by omega, by omega, rfl, hlt, by omega, parse_unsigned_ok_lt hmv⟩
  · exact Option.noConfusion hsz

theorem parse_header_append {fc l2 : List Nat}
    {out : List Nat × Nat × Nat × Nat × Nat × Nat}
    (hp : parse_header fc = .ok out) :
    parse_header (fc ++ l2) = .ok out := by
  unfold parse_header at hp ⊢
  split at hp
  · exact Except.noConfusion hp
  rename_i s1 hs1
  rw [gcs_append hs1]
  dsimp only
  split at hp
  · exact Except.noConfusion hp
  rename_i e1 he1
  rw [gce_append he1]
  dsimp only
  split at hp
  · exact Except.noConfusion hp
  rename_i s2 hs2
  rw [gcs_append hs2]
  dsimp only
  split at hp
  · exact Except.noConfusion hp
  rename_i e2 he2
  rw [gce_append he2]
  dsimp only
  rw [byte_slice_append (Nat.le_of_lt (gce_some he2).2)]
  split at hp
  · exact Except.noConfusion hp
  · exact Except.noConfusion hp
  rename_i width hw
  split at hp
  · exact Except.noConfusion hp
  rename_i s3 hs3
  rw [gcs_append hs3]
  dsimp only
  split at hp
  · exact Except.noConfusion hp
  rename_i e3 he3
  rw [gce_append he3]
  dsimp only
  rw [byte_slice_append (Nat.le_of_lt (gce_some he3).2)]
  split at hp
  · exact Except.noConfusion hp
  · exact Except.noConfusion hp
  rename_i height hh
  split at hp
  · exact Except.noConfusion hp
  rename_i size' hsz
  split at hp
  · exact Except.noConfusion hp
  rename_i s4 hs4
  rw [gcs_append hs4]
  dsimp only
  split at hp
  · exact Except.noConfusion hp
  rename_i e4 he4
  rw [find_index_append he4]
  dsimp only
  rw [byte_slice_append (Nat.le_of_lt (find_index_some he4).2.1)]
  split at hp
  · exact Except.noConfusion hp
  · exact Except.noConfusion hp
  rename_i maxval hmv
  split at hp
  · exact Except.noConfusion hp
  rename_i hmv0
  rw [byte_slice_append (Nat.le_of_lt (gce_some he1).2)]
  rw [if_neg hmv0]
  exact hp

theorem read_u8_ok {raw : List Nat} {size mv n : Nat} {pxs : List Pixel}
    (h : read_image_from_u8_maxval raw size mv = .ok (n, pxs)) :
    n = size * 3 ∧ n ≤ raw.length ∧ pxs.length = size ∧
      ∀ p ∈ pxs, p.rgba.a = 0 := by
  unfold read_image_from_u8_maxval at h
  split at h
  · exact Except.noConfusion h
  rename_i limit hcm
  split at h
  · exact Except.noConfusion h
  rename_i hlen
  injection h with h
  injection h with h1 h2
  subst h1
  subst h2
  unfold checked_mul at hcm
  split at hcm
  · cases hcm
    refine ⟨rfl, by omega, by simp, ?_⟩
    intro p hp
    rcases List.mem_map.mp hp with ⟨k, _, rfl⟩
    rfl
  · exact Option.noConfusion hcm

theorem read_u16_ok {raw : List Nat} {size mv n : Nat} {pxs : List Pixel}
    (h : read_image_from_u16_maxval raw size mv = .ok (n, pxs)) :
    n = size * 6 ∧ n ≤ raw.length ∧ pxs.length = size ∧
      ∀ p ∈ pxs, p.rgba.a = 0 := by
  unfold read_image_from_u16_maxval at h
  split at h
  · exact Except.noConfusion h
  rename_i limit hcm
  split at h
  · exact Except.noConfusion h
  rename_i hlen
  injection h with h
  injection h with h1 h2
  subst h1
  subst h2
  unfold checked_mul at hcm
  split at hcm
  · cases hcm
    refine ⟨rfl, by omega, by simp, ?_⟩
    intro p hp
    rcases List.mem_map.mp hp with ⟨k, _, rfl⟩
    rfl
  · exact Option.noConfusion hcm

theorem read_u8_append {raw extra : List Nat} {size mv n : Nat}
    {pxs : List Pixel}
    (h : read_image_from_u8_maxval raw size mv = .ok (n, pxs)) :
    read_image_from_u8_maxval (raw ++ extra) size mv = .ok (n, pxs) := by
  unfold read_image_from_u8_maxval at h ⊢
  split at h
  · exact Except.noConfusion h
  rename_i limit hcm
  split at h
  · exact Except.noConfusion h
  rename_i hlen
  have hlimit : limit = size * 3 := by
    unfold checked_mul at hcm
    split at hcm
    · cases hcm; rfl
    · exact Option.noConfusion hcm
  rw [if_neg (by simp [List.length_append]; omega)]
  have hmap : ∀ k ∈ List.range size,
      (⟨⟨convert_u8_maxval_color ((raw ++ extra).getD (3 * k) 0) mv,
        convert_u8_maxval_color ((raw ++ extra).getD (3 * k + 1) 0) mv,
        convert_u8_maxval_color ((raw ++ extra).getD (3 * k + 2) 0) mv,
        DEFAULT_ALPHA_VALUE⟩⟩ : Pixel) =
      (⟨⟨convert_u8_maxval_color (raw.getD (3 * k) 0) mv,
        convert_u8_maxval_color (raw.getD (3 * k + 1) 0) mv,
        convert_u8_maxval_color (raw.getD (3 * k + 2) 0) mv,
        DEFAULT_ALPHA_VALUE⟩⟩ : Pixel) := by
    intro k hk
    have hk' : k < size := List.mem_range.mp hk
    rw [getD_append_left (by omega), getD_append_left (by omega),
      getD_append_left (by omega)]
  rw [List.map_congr_left hmap]
  exact h

theorem read_u16_append {raw extra : List Nat} {size mv n : Nat}
    {pxs : List Pixel}
    (h : read_image_from_u16_maxval raw size mv = .ok (n, pxs)) :
    read_image_from_u16_maxval (raw ++ extra) size mv = .ok (n, pxs) := by
  unfold read_image_from_u16_maxval at h ⊢
  split at h
  · exact Except.noConfusion h
  rename_i limit hcm
  split at h
  · exact Except.noConfusion h
  rename_i hlen
  have hlimit : limit = size * 6 := by
    unfold checked_mul at hcm
    split at hcm
    · cases hcm; rfl
    · exact Option.noConfusion hcm
  rw [if_neg (by simp [List.length_append]; omega)]
  have hmap : ∀ k ∈ List.range size,
      (⟨⟨convert_u16_maxval_color
          ((raw ++ extra).getD (6 * k + 1) 0 +
            256 * (raw ++ extra).getD (6 * k) 0) mv,
        convert_u16_maxval_color
          ((raw ++ extra).getD (6 * k + 3) 0 +
            256 * (raw ++ extra).getD (6 * k + 2) 0) mv,
        convert_u16_maxval_color
          ((raw ++ extra).getD (6 * k + 5) 0 +
            256 * (raw ++ extra).getD (6 * k + 4) 0) mv,
        DEFAULT_ALPHA_VALUE⟩⟩ : Pixel) =
      (⟨⟨convert_u16_maxval_color
          (raw.getD (6 * k + 1) 0 + 256 * raw.getD (6 * k) 0) mv,
        convert_u16_maxval_color
          (raw.getD (6 * k + 3) 0 + 256 * raw.getD (6 * k + 2) 0) mv,
        convert_u16_maxval_color
          (raw.getD (6 * k + 5) 0 + 256 * raw.getD (6 * k + 4) 0) mv,
        DEFAULT_ALPHA_VALUE⟩⟩ : Pixel) := by
    intro k hk
    have hk' : k < size := List.mem_range.mp hk
    rw [getD_append_left (by omega), getD_append_left (by omega),
      getD_append_left (by omega), getD_append_left (by omega),
      getD_append_left (by omega), getD_append_left (by omega)]
  rw [List.map_congr_left hmap]
  exact h

theorem read_image_ok {raw : List Nat} {w h size mv n : Nat} {img : Image}
    (hr : read_image raw w h size mv = .ok (n, img)) :
    img.width = w ∧ img.height = h ∧ img.data.length = size ∧
      (∀ p ∈ img.data, p.rgba.a = 0) ∧ n ≤ raw.length := by
  unfold read_image at hr
  split at hr
  · exact Except.noConfusion hr
  split at hr
  · split at hr
    · exact Except.noConfusion hr
    rename_i n' pxs hu
    injection hr with hr
    injection hr with h1 h2
    subst h1
    subst h2
    rcases read_u8_ok hu with ⟨_, hle, hlen, ha⟩
    exact ⟨rfl, rfl, hlen, ha, hle⟩
  · split at hr
    · exact Except.noConfusion hr
    rename_i n' pxs hu
    injection hr with hr
    injection hr with h1 h2
    subst h1
    subst h2
    rcases read_u16_ok hu with ⟨_, hle, hlen, ha⟩
    exact ⟨rfl, rfl, hlen, ha, hle⟩

theorem read_image_append {raw extra : List Nat} {w h size mv n : Nat}
    {img : Image}
    (hr : read_image raw w h size mv = .ok (n, img)) :
    read_image (raw ++ extra) w h size mv = .ok (n, img) := by
  unfold read_image at hr ⊢
  split at hr
  · exact Except.noConfusion hr
  rename_i halloc
  rw [if_neg halloc]
  split at hr
  · rename_i hmv
    rw [if_pos hmv]
    split at hr
    · exact Except.noConfusion hr
    rename_i n' pxs hu
    rw [read_u8_append hu]
    exact hr
  · rename_i hmv
    rw [if_neg hmv]
    split at hr
    · exact Except.noConfusion hr
    rename_i n' pxs hu
    rw [read_u16_append hu]
    exact hr

theorem read_image_size_zero (raw : List Nat) (w h mv : Nat) :
    read_image raw w h 0 mv = .ok (0, Image.new w h []) := by
  unfold read_image
  rw [if_neg (by decide)]
  split
  · simp [read_image_from_u8_maxval, checked_mul, usizeBound]
  · simp [read_image_from_u16_maxval, checked_mul, usizeBound]

theorem read_image_insufficient {raw : List Nat} {w h size mv : Nat}
    (halloc : size * 4 ≤ isizeMax)
    (hlen : raw.length < size * 3 * (if mv < 256 then 1 else 2)) :
    read_image raw w h size mv = .error .LessThanSizePixelsFoundInFile := by
  have hiz : isizeMax = 9223372036854775807 := rfl
  have hub : usizeBound = 18446744073709551616 := rfl
  unfold read_image read_image_from_u8_maxval read_image_from_u16_maxval
  rw [if_neg (Nat.not_lt.mpr halloc)]
  by_cases hmv : mv < 256
  · rw [if_pos hmv] at hlen
    rw [if_pos hmv]
    have hcm : checked_mul size 3 = some (size * 3) := by
      unfold checked_mul
      rw [if_pos (by omega)]
    rw [hcm]
    dsimp only
    rw [if_pos (by omega)]
  · rw [if_neg hmv] at hlen
    rw [if_neg hmv]
    have hcm : checked_mul size 6 = some (size * 6) := by
      unfold checked_mul
      rw [if_pos (by omega)]
    rw [hcm]
    dsimp only
    rw [if_pos (by omega)]

theorem parse_image_pos {fc : List Nat} {n : Nat} {img : Image}
    (hp : parse_image fc = .ok (n, img)) : 1 ≤ n ∧ n ≤ fc.length := by
  unfold parse_image at hp
  split at hp
  · exact Except.noConfusion hp
  rename_i fmt w h size mv ds hh
  split at hp
  · rename_i hfmt
    split at hp
    · exact Except.noConfusion hp
    rename_i br img' hr
    injection hp with hp
    injection hp with h1 h2
    rcases parse_header_ok hh with ⟨hds1, hds2, _, _, _, _⟩
    rcases read_image_ok hr with ⟨_, _, _, _, hbr⟩
    rw [List.length_drop] at hbr
    omega
  · exact Except.noConfusion hp

theorem parse_image_append {fc l2 : List Nat} {n : Nat} {img : Image}
    (hp : parse_image fc = .ok (n, img)) :
    parse_image (fc ++ l2) = .ok (n, img) := by
  unfold parse_image at hp ⊢
  split at hp
  · exact Except.noConfusion hp
  rename_i fmt w h size mv ds hh
  rw [parse_header_append hh]
  dsimp only
  split at hp
  · rename_i hfmt
    rw [if_pos hfmt]
    rcases parse_header_ok hh with ⟨_, hds, _, _, _, _⟩
    have hdrop : (fc ++ l2).drop ds = fc.drop ds ++ l2 := by
      rw [List.drop_append_eq_append_drop]
      have hz : ds - fc.length = 0 := by omega
      rw [hz, List.drop_zero]
    rw [hdrop]
    split at hp
    · exact Except.noConfusion hp
    rename_i br img' hr
    rw [read_image_append hr]
    exact hp
  · rename_i hfmt
    rw [if_neg hfmt]
    exact hp

theorem parse_image_fields {fc fmt : List Nat} {w h size mv ds n : Nat}
    {img : Image}
    (hh : parse_header fc = .ok (fmt, w, h, size, mv, ds))
    (hp : parse_image fc = .ok (n, img)) :
    img.width = w ∧ img.height = h ∧ img.data.length = w * h ∧
      ∀ p ∈ img.data, p.rgba.a = 0 := by
  unfold parse_image at hp
  rw [hh] at hp
  dsimp only at hp
  split at hp
  · split at hp
    · exact Except.noConfusion hp
    rename_i br img' hr
    injection hp with hp
    injection hp with h1 h2
    subst h2
    rcases read_image_ok hr with ⟨hw, hht, hlen, ha, _⟩
    rcases parse_header_ok hh with ⟨_, _, hsize, _, _, _⟩
    exact ⟨hw, hht, by rw [hlen, hsize], ha⟩
  · exact Except.noConfusion hp

theorem parse_ppm_loop_total {fc : List Nat} :
    ∀ {fuel cursor : Nat} {images : List Image},
      fc.length - cursor < fuel → parse_ppm_loop fc fuel cursor images ≠ none := by
  intro fuel
  induction fuel with
  | zero => intro cursor images h; omega
  | succ fuel ih =>
    intro cursor images h
    simp only [parse_ppm_loop]
    split
    · rename_i hc
      cases hp : parse_image (fc.drop cursor) with
      | error e => simp
      | ok pr =>
        obtain ⟨n, img⟩ := pr
        dsimp only
        cases hg : get_content_start_index fc (cursor + n) with
        | none => simp
        | some i =>
          dsimp only
          apply ih
          rcases gcs_some hg with ⟨hi1, hi2, _, _⟩
          rcases parse_image_pos hp with ⟨hn1, _⟩
          omega
    · simp

theorem parse_ppm_loop_ok_ne_nil {fc : List Nat} :
    ∀ {fuel cursor : Nat} {images res : List Image},
      parse_ppm_loop fc fuel cursor images = some (.ok res) →
      (images ≠ [] ∨ cursor < fc.length) → res ≠ [] := by
  intro fuel
  induction fuel with
  | zero => intro cursor images res h _; exact Option.noConfusion h
  | succ fuel ih =>
    intro cursor images res h hor
    simp only [parse_ppm_loop] at h
    split at h
    · rename_i hc
      split at h
      · injection h with h
        exact Except.noConfusion h
      rename_i n img hp
      split at h
      · rename_i i hg
        exact ih h (Or.inl (by simp))
      · injection h with h
        injection h with h
        subst h
        simp
    · rename_i hc
      injection h with h
      injection h with h
      subst h
      rcases hor with hne | hlt
      · exact hne
      · exact absurd hlt hc

theorem parse_ppm_single {fc : List Nat} {n : Nat} {img : Image}
    (hp : parse_image fc = .ok (n, img))
    (hend : get_content_start_index fc n = none) :
    parse_ppm_file fc = .ok [img] := by
  rcases parse_image_pos hp with ⟨hn1, hn2⟩
  have hne : fc ≠ [] := by
    intro hnil
    subst hnil
    simp at hn2
    omega
  have hloop : parse_ppm_loop fc (fc.length + 1) 0 [] = some (.ok [img]) := by
    simp only [parse_ppm_loop]
    rw [if_pos (by omega), List.drop_zero, hp]
    dsimp only
    rw [Nat.zero_add, hend]
    simp
  unfold parse_ppm_file
  rw [if_neg (by simp [List.isEmpty_iff, hne]), hloop]

theorem gcs_append_start {l1 l2 : List Nat}
    (h : get_content_start_index l2 0 = some 0) :
    get_content_start_index (l1 ++ l2) l1.length = some l1.length := by
  unfold get_content_start_index at h ⊢
  have h' : get_content_start_loop l2 0 ((l1 ++ l2).length + 1) = some 0 :=
    gcs_fuel_mono h (by simp)
  have hs := @gcs_loop_shift l1 l2 ((l1 ++ l2).length + 1) 0
  rw [Nat.add_zero] at hs
  rw [hs, h']
  simp

theorem parse_ppm_two {b1 b2 : List Nat} {img1 img2 : Image}
    (h1 : parse_image b1 = .ok (b1.length, img1))
    (h2 : parse_image b2 = .ok (b2.length, img2))
    (hstart : get_content_start_index b2 0 = some 0) :
    parse_ppm_file (b1 ++ b2) = .ok [img1, img2] := by
  have hp1 : 1 ≤ b1.length := (parse_image_pos h1).1
  have hp2 : 1 ≤ b2.length := (parse_image_pos h2).1
  have hA : parse_image ((b1 ++ b2).drop 0) = .ok (b1.length, img1) := by
    rw [List.drop_zero]
    exact parse_image_append h1
  have hG : get_content_start_index (b1 ++ b2) b1.length = some b1.length :=
    gcs_append_start hstart
  have hB : parse_image ((b1 ++ b2).drop b1.length) = .ok (b2.length, img2) := by
    rw [List.drop_left]
    exact h2
  have hend : get_content_start_index (b1 ++ b2) (b1.length + b2.length) = none :=
    gcs_none_of_le (by simp)
  have hsum : (b1 ++ b2).length = b1.length + b2.length := by simp
  obtain ⟨k, hk⟩ : ∃ k, (b1 ++ b2).length = k + 1 + 1 :=
    ⟨(b1 ++ b2).length - 2, by omega⟩
  have hloop : parse_ppm_loop (b1 ++ b2) ((b1 ++ b2).length + 1) 0 []
      = some (.ok [img1, img2]) := by
    rw [hk]
    simp only [parse_ppm_loop]
    rw [if_pos (by omega), hA]
    dsimp only
    rw [Nat.zero_add, hG]
    dsimp only
    rw [if_pos (by omega), hB]
    dsimp only
    rw [hend]
    dsimp only
    rfl
  unfold parse_ppm_file
  have hne : ¬((b1 ++ b2).isEmpty = true) := by
    rw [List.isEmpty_iff]
    intro hnil
    have h0 : b1.length + b2.length = 0 := by
      rw [← List.length_append, hnil]
      rfl
    omega
  rw [if_neg hne, hloop]

/-! ### Correctness of the binary64 rounding model -/

theorem bitlen_fuel_zero (fuel : Nat) : bitlen_fuel fuel 0 = 0 := by
  cases fuel with
  | zero => rfl
  | succ fuel => simp [bitlen_fuel]

theorem bitlen_fuel_correct :
    ∀ (fuel n : Nat), n ≤ fuel → 1 ≤ n →
      1 ≤ bitlen_fuel fuel n ∧ 2 ^ (bitlen_fuel fuel n - 1) ≤ n ∧
        n < 2 ^ bitlen_fuel fuel n := by
  intro fuel
  induction fuel with
  | zero => intro n h1 h2; omega
  | succ fuel ih =>
    intro n h1 h2
    have hne : ¬(n = 0) := by omega
    simp only [bitlen_fuel, hne, if_neg, not_false_iff]
    rcases Nat.lt_or_ge n 2 with hn2 | hn2
    · have hn1 : n = 1 := by omega
      subst hn1
      norm_num [bitlen_fuel_zero]
    · have hhalf1 : 1 ≤ n / 2 := by omega
      have hhalf2 : n / 2 ≤ fuel := by omega
      rcases ih (n / 2) hhalf2 hhalf1 with ⟨hL1, hlow, hhigh⟩
      set L := bitlen_fuel fuel (n / 2) with hLdef
      refine ⟨by omega, ?_, ?_⟩
      · have he : 2 ^ (L + 1 - 1) = 2 * 2 ^ (L - 1) := by
          have : L + 1 - 1 = (L - 1) + 1 := by omega
          rw [this, Nat.pow_succ]
          ring
        rw [he]
        omega
      · have he : 2 ^ (L + 1) = 2 * 2 ^ L := by
          rw [Nat.pow_succ]
          ring
        rw [he]
        omega

theorem bitlen_pos {n : Nat} (h : 1 ≤ n) : 1 ≤ bitlen n :=
  (bitlen_fuel_correct (n + 1) n (by omega) h).1

theorem bitlen_le {n : Nat} (h : 1 ≤ n) : 2 ^ (bitlen n - 1) ≤ n :=
  (bitlen_fuel_correct (n + 1) n (by omega) h).2.1

theorem bitlen_gt {n : Nat} (h : 1 ≤ n) : n < 2 ^ bitlen n :=
  (bitlen_fuel_correct (n + 1) n (by omega) h).2.2

theorem qexp_spec {a b : Nat} (ha : 1 ≤ a) (hb : 1 ≤ b) :
    (2 : ℚ) ^ qexp a b ≤ (a : ℚ) / (b : ℚ) ∧
      (a : ℚ) / (b : ℚ) < (2 : ℚ) ^ (qexp a b + 1) := by
  have haq : (0 : ℚ) < (a : ℚ) := by exact_mod_cast ha
  have hbq : (0 : ℚ) < (b : ℚ) := by exact_mod_cast hb
  have hla := bitlen_pos ha
  have hlb := bitlen_pos hb
  have hal := bitlen_le ha
  have hag := bitlen_gt ha
  have hbl := bitlen_le hb
  have hbg := bitlen_gt hb
  unfold qexp
  split
  · rename_i hd
    -- bitlen b ≤ bitlen a
    set la := bitlen a
    set lb := bitlen b
    dsimp only
    split
    · rename_i htest
      constructor
      · rw [zpow_natCast]
        rw [le_div_iff hbq]
        calc (2 : ℚ) ^ (la - lb) * b = (((2 ^ (la - lb) * b : Nat) : ℚ)) := by
              push_cast; ring
          _ ≤ (a : ℚ) := by
              have hc := htest
              rw [Nat.mul_comm] at hc
              exact_mod_cast hc
      · have hcast : ((la - lb : Nat) : Int) + 1 = ((la - lb + 1 : Nat) : Int) := by
          push_cast; ring
        rw [hcast, zpow_natCast]
        rw [div_lt_iff hbq]
        have hnat : a < 2 ^ (la - lb + 1) * b := by
          calc a < 2 ^ la := hag
            _ = 2 ^ (la - lb + 1) * 2 ^ (lb - 1) := by
                rw [← Nat.pow_add]
                congr 1
                omega
            _ ≤ 2 ^ (la - lb + 1) * b := Nat.mul_le_mul_left _ hbl
        calc (a : ℚ) < (((2 ^ (la - lb + 1) * b : Nat)) : ℚ) := by exact_mod_cast hnat
          _ = (2 : ℚ) ^ (la - lb + 1) * b := by push_cast; ring
    · rename_i htest
      push_neg at htest
      constructor
      · rw [zpow_sub₀ (by norm_num : (2 : ℚ) ≠ 0), zpow_natCast, zpow_one]
        rw [div_le_div_iff (by norm_num) hbq]
        have hnat : 2 ^ (la - lb) * b ≤ 2 * a := by
          calc 2 ^ (la - lb) * b ≤ 2 ^ (la - lb) * 2 ^ lb := Nat.mul_le_mul_left _ (by omega)
            _ = 2 * 2 ^ (la - 1) := by
                rw [← Nat.pow_add, ← Nat.pow_succ']
                congr 1
                omega
            _ ≤ 2 * a := by omega
        calc (2 : ℚ) ^ (la - lb) * b = (((2 ^ (la - lb) * b : Nat)) : ℚ) := by
              push_cast; ring
          _ ≤ ((2 * a : Nat) : ℚ) := by exact_mod_cast hnat
          _ = (a : ℚ) * 2 := by push_cast; ring
      · have hcast : ((la - lb : Nat) : Int) - 1 + 1 = ((la - lb : Nat) : Int) := by ring
        rw [hcast, zpow_natCast]
        rw [div_lt_iff hbq]
        calc (a : ℚ) < ((b * 2 ^ (la - lb) : Nat) : ℚ) := by exact_mod_cast htest
          _ = (2 : ℚ) ^ (la - lb) * b := by push_cast; ring
  · rename_i hd
    push_neg at hd
    -- bitlen a < bitlen b
    set la := bitlen a
    set lb := bitlen b
    have hd1 : 1 ≤ lb - la := by omega
    dsimp only
    split
    · rename_i htest
      constructor
      · rw [zpow_neg, zpow_natCast, inv_eq_one_div,
          div_le_div_iff (by positivity) hbq]
        calc (1 : ℚ) * b = ((b : Nat) : ℚ) := by ring
          _ ≤ ((a * 2 ^ (lb - la) : Nat) : ℚ) := by exact_mod_cast htest
          _ = (a : ℚ) * 2 ^ (lb - la) := by push_cast; ring
      · have hcast : -(((lb - la : Nat)) : Int) + 1 =
            -(((lb - la - 1 : Nat)) : Int) := by omega
        rw [hcast, zpow_neg, zpow_natCast, inv_eq_one_div,
          div_lt_div_iff hbq (by positivity)]
        have hnat : a * 2 ^ (lb - la - 1) < b := by
          calc a * 2 ^ (lb - la - 1) < 2 ^ la * 2 ^ (lb - la - 1) :=
                (Nat.mul_lt_mul_right (Nat.pos_pow_of_pos _ (by omega))).mpr hag
            _ = 2 ^ (lb - 1) := by
                rw [← Nat.pow_add]
                congr 1
                omega
            _ ≤ b := hbl
        calc (a : ℚ) * 2 ^ (lb - la - 1)
              = ((a * 2 ^ (lb - la - 1) : Nat) : ℚ) := by push_cast; ring
          _ < ((b : Nat) : ℚ) := by exact_mod_cast hnat
          _ = (1 : ℚ) * b := by ring
    · rename_i htest
      push_neg at htest
      constructor
      · have hcast : -(((lb - la : Nat)) : Int) - 1 =
            -(((lb - la + 1 : Nat)) : Int) := by omega
        rw [hcast, zpow_neg, zpow_natCast, inv_eq_one_div,
          div_le_div_iff (by positivity) hbq]
        have hnat : b ≤ a * 2 ^ (lb - la + 1) := by
          have h1 : 2 ^ lb = 2 ^ la * 2 ^ (lb - la) := by
            rw [← Nat.pow_add]
            congr 1
            omega
          have h2 : 2 ^ la ≤ 2 * a := by
            have : 2 ^ la = 2 * 2 ^ (la - 1) := by
              rw [← Nat.pow_succ']
              congr 1
              omega
            omega
          calc b ≤ 2 ^ lb := by omega
            _ = 2 ^ la * 2 ^ (lb - la) := h1
            _ ≤ 2 * a * 2 ^ (lb - la) := Nat.mul_le_mul_right _ h2
            _ = a * 2 ^ (lb - la + 1) := by
                rw [Nat.pow_succ]
                ring
        calc (1 : ℚ) * b = ((b : Nat) : ℚ) := by ring
          _ ≤ ((a * 2 ^ (lb - la + 1) : Nat) : ℚ) := by exact_mod_cast hnat
          _ = (a : ℚ) * 2 ^ (lb - la + 1) := by push_cast; ring
      · have hcast : -(((lb - la : Nat)) : Int) - 1 + 1 =
            -(((lb - la : Nat)) : Int) := by ring
        rw [hcast, zpow_neg, zpow_natCast, inv_eq_one_div,
          div_lt_div_iff hbq (by positivity)]
        calc (a : ℚ) * 2 ^ (lb - la) = ((a * 2 ^ (lb - la) : Nat) : ℚ) := by
              push_cast; ring
          _ < ((b : Nat) : ℚ) := by exact_mod_cast htest
          _ = (1 : ℚ) * b := by ring

theorem rhe_spec {p q : Nat} (hq : 1 ≤ q) :
    |(rhe p q : ℚ) - (p : ℚ) / q| ≤ 1 / 2 := by
  have hqq : (0 : ℚ) < q := by exact_mod_cast hq
  have hmod := Nat.div_add_mod p q
  have hrlt : p % q < q := Nat.mod_lt _ (by omega)
  have hx : (p : ℚ) / q = ((p / q : Nat) : ℚ) + ((p % q : Nat) : ℚ) / q := by
    have hp : (p : ℚ) = (q : ℚ) * ((p / q : Nat) : ℚ) + ((p % q : Nat) : ℚ) := by
      exact_mod_cast hmod.symm
    rw [hp]
    field_simp
    ring
  rw [hx]
  unfold rhe
  dsimp only
  have hr0 : (0 : ℚ) ≤ ((p % q : Nat) : ℚ) / q := by positivity
  have hr1 : ((p % q : Nat) : ℚ) / q < 1 := by
    rw [div_lt_one hqq]
    exact_mod_cast hrlt
  split
  · rename_i hlt
    have hhalf : ((p % q : Nat) : ℚ) / q ≤ 1 / 2 := by
      rw [div_le_div_iff hqq (by norm_num)]
      exact_mod_cast (by omega : p % q * 2 ≤ 1 * q)
    rw [show ((p / q : Nat) : ℚ) - (((p / q : Nat) : ℚ) + ((p % q : Nat) : ℚ) / q)
        = -(((p % q : Nat) : ℚ) / q) by ring]
    rw [abs_neg, abs_of_nonneg hr0]
    exact hhalf
  split
  · rename_i hgt
    have hhalf : 1 / 2 ≤ ((p % q : Nat) : ℚ) / q := by
      rw [div_le_div_iff (by norm_num) hqq]
      exact_mod_cast (by omega : 1 * q ≤ p % q * 2)
    rw [show ((p / q + 1 : Nat) : ℚ) - (((p / q : Nat) : ℚ) + ((p % q : Nat) : ℚ) / q)
        = 1 - ((p % q : Nat) : ℚ) / q by push_cast; ring]
    rw [abs_of_nonneg (by linarith)]
    linarith
  · rename_i hge hle
    have h2r : p % q * 2 = 1 * q := by omega
    have hhalf : ((p % q : Nat) : ℚ) / q = 1 / 2 := by
      rw [div_eq_div_iff (ne_of_gt hqq) (by norm_num)]
      exact_mod_cast h2r
    split
    · rw [show ((p / q : Nat) : ℚ) - (((p / q : Nat) : ℚ) + ((p % q : Nat) : ℚ) / q)
          = -(((p % q : Nat) : ℚ) / q) by ring]
      rw [abs_neg, abs_of_nonneg hr0, hhalf]
    · rw [show ((p / q + 1 : Nat) : ℚ) - (((p / q : Nat) : ℚ) + ((p % q : Nat) : ℚ) / q)
          = 1 - ((p % q : Nat) : ℚ) / q by push_cast; ring]
      rw [abs_of_nonneg (by linarith), hhalf]
      norm_num

/-- The rational value of a significand/exponent pair. -/
def pairVal (p : Nat × Int) : ℚ := (p.1 : ℚ) * (2 : ℚ) ^ (p.2 - 52)

theorem roundPair_eq_of_le {a b : Nat} (he : qexp a b ≤ 52) :
    roundPair a b = (rhe (a * 2 ^ (52 - qexp a b).toNat) b, qexp a b) := by
  unfold roundPair
  dsimp only
  rw [if_pos he]

theorem roundPair_eq_of_gt {a b : Nat} (he : ¬qexp a b ≤ 52) :
    roundPair a b = (rhe a (b * 2 ^ (qexp a b - 52).toNat), qexp a b) := by
  unfold roundPair
  dsimp only
  rw [if_neg he]

theorem roundPair_exp (a b : Nat) : (roundPair a b).2 = qexp a b := by
  by_cases he : qexp a b ≤ 52
  · rw [roundPair_eq_of_le he]
  · rw [roundPair_eq_of_gt he]

theorem qexp_sub53 {a b : Nat} (ha : 1 ≤ a) (hb : 1 ≤ b) :
    (2 : ℚ) ^ (qexp a b - 53) ≤ ((a : ℚ) / b) / 2 ^ 53 := by
  obtain ⟨hlow, _⟩ := qexp_spec ha hb
  rw [le_div_iff (by positivity : (0 : ℚ) < 2 ^ 53)]
  calc (2 : ℚ) ^ (qexp a b - 53) * 2 ^ 53
      = (2 : ℚ) ^ (qexp a b - 53) * (2 : ℚ) ^ ((53 : ℕ) : ℤ) := by
        rw [zpow_natCast]
    _ = (2 : ℚ) ^ qexp a b := by
        rw [← zpow_add₀ (by norm_num : (2 : ℚ) ≠ 0)]
        congr 1
        omega
    _ ≤ (a : ℚ) / b := hlow

theorem roundPair_err {a b : Nat} (ha : 1 ≤ a) (hb : 1 ≤ b) :
    |pairVal (roundPair a b) - (a : ℚ) / b| ≤ ((a : ℚ) / b) / 2 ^ 53 := by
  have haq : (0 : ℚ) < a := by exact_mod_cast ha
  have hbq : (0 : ℚ) < b := by exact_mod_cast hb
  by_cases he : qexp a b ≤ 52
  · rw [roundPair_eq_of_le he]
    set e := qexp a b with hedef
    set t := (52 - e).toNat with htdef
    have ht : (t : Int) = 52 - e := Int.toNat_of_nonneg (by omega)
    unfold pairVal
    dsimp only
    have hexp : (2 : ℚ) ^ (e - 52) = ((2 : ℚ) ^ t)⁻¹ := by
      rw [← zpow_natCast (2 : ℚ) t, ← zpow_neg]
      congr 1
      omega
    have htpos : (0 : ℚ) < (2 : ℚ) ^ t := by positivity
    have hab : (a : ℚ) / b = (((a * 2 ^ t : Nat) : ℚ) / b) * ((2 : ℚ) ^ t)⁻¹ := by
      push_cast
      field_simp
      ring
    rw [hexp]
    have hmain : |(rhe (a * 2 ^ t) b : ℚ) * ((2 : ℚ) ^ t)⁻¹ - (a : ℚ) / b|
        = |(rhe (a * 2 ^ t) b : ℚ) - ((a * 2 ^ t : Nat) : ℚ) / b|
          * ((2 : ℚ) ^ t)⁻¹ := by
      conv_lhs => rw [hab]
      rw [← sub_mul, abs_mul, abs_of_nonneg (le_of_lt (inv_pos.mpr htpos))]
    rw [hmain]
    have hstep := mul_le_mul_of_nonneg_right (rhe_spec (p := a * 2 ^ t) hb)
      (le_of_lt (inv_pos.mpr htpos))
    refine le_trans hstep ?_
    have h1 : (1 / 2 : ℚ) * ((2 : ℚ) ^ t)⁻¹ = (2 : ℚ) ^ (e - 53) := by
      have hcast : (e - 53 : Int) = -1 + -(t : Int) := by omega
      rw [hcast, zpow_add₀ (by norm_num : (2 : ℚ) ≠ 0), zpow_neg, zpow_neg,
        zpow_one, zpow_natCast]
      norm_num
    rw [h1]
    exact qexp_sub53 ha hb
  · rw [roundPair_eq_of_gt he]
    set e := qexp a b with hedef
    set t := (e - 52).toNat with htdef
    have ht : (t : Int) = e - 52 := Int.toNat_of_nonneg (by omega)
    unfold pairVal
    dsimp only
    have hexp : (2 : ℚ) ^ (e - 52) = (2 : ℚ) ^ t := by
      rw [← zpow_natCast (2 : ℚ) t]
      congr 1
      omega
    have htpos : (0 : ℚ) < (2 : ℚ) ^ t := by positivity
    have hbt : 1 ≤ b * 2 ^ t :=
      Nat.mul_pos (by omega) (Nat.pos_pow_of_pos _ (by omega))
    have hab : (a : ℚ) / b = ((a : ℚ) / ((b * 2 ^ t : Nat) : ℚ)) * (2 : ℚ) ^ t := by
      push_cast
      field_simp
      ring
    rw [hexp]
    have hmain : |(rhe a (b * 2 ^ t) : ℚ) * (2 : ℚ) ^ t - (a : ℚ) / b|
        = |(rhe a (b * 2 ^ t) : ℚ) - (a : ℚ) / ((b * 2 ^ t : Nat) : ℚ)|
          * (2 : ℚ) ^ t := by
      conv_lhs => rw [hab]
      rw [← sub_mul, abs_mul, abs_of_nonneg (le_of_lt htpos)]
    rw [hmain]
    have hstep := mul_le_mul_of_nonneg_right (rhe_spec (p := a) hbt)
      (le_of_lt htpos)
    refine le_trans hstep ?_
    have h1 : (1 / 2 : ℚ) * (2 : ℚ) ^ t = (2 : ℚ) ^ (e - 53) := by
      have hcast : (e - 53 : Int) = -1 + (t : Int) := by omega
      rw [hcast, zpow_add₀ (by norm_num : (2 : ℚ) ≠ 0), zpow_neg,
        zpow_one, zpow_natCast]
      norm_num
    rw [h1]
    exact qexp_sub53 ha hb

theorem roundPair_sig_pos {a b : Nat} (ha : 1 ≤ a) (hb : 1 ≤ b) :
    1 ≤ (roundPair a b).1 := by
  by_contra hcon
  have hn : (roundPair a b).1 = 0 := by omega
  have herr := roundPair_err ha hb
  have haq : (0 : ℚ) < a := by exact_mod_cast ha
  have hbq : (0 : ℚ) < b := by exact_mod_cast hb
  have hxpos : (0 : ℚ) < (a : ℚ) / b := by positivity
  unfold pairVal at herr
  rw [hn] at herr
  simp only [Nat.cast_zero, zero_mul, zero_sub, abs_neg] at herr
  rw [abs_of_pos hxpos] at herr
  have hlt : ((a : ℚ) / b) / 2 ^ 53 < (a : ℚ) / b :=
    div_lt_self hxpos (by norm_num)
  linarith

theorem rhe_scale {c p q : Nat} (hc : 1 ≤ c) :
    rhe (c * p) (c * q) = rhe p q := by
  unfold rhe
  dsimp only
  rw [Nat.mul_div_mul_left _ _ (by omega : 0 < c), Nat.mul_mod_mul_left]
  have h2 : 2 * (c * (p % q)) = c * (2 * (p % q)) := by ring
  rw [h2]
  simp only [Nat.mul_lt_mul_left (by omega : 0 < c)]

theorem zpow_interval_unique {x : ℚ} {e f : Int}
    (h1 : (2 : ℚ) ^ e ≤ x) (h2 : x < (2 : ℚ) ^ (e + 1))
    (h3 : (2 : ℚ) ^ f ≤ x) (h4 : x < (2 : ℚ) ^ (f + 1)) : e = f := by
  by_contra hne
  rcases lt_or_gt_of_ne hne with hlt | hgt
  · have hstep : (2 : ℚ) ^ (e + 1) ≤ (2 : ℚ) ^ f := by
      apply zpow_le_zpow_right₀ (by norm_num : (1 : ℚ) ≤ 2)
      omega
    linarith
  · have hstep : (2 : ℚ) ^ (f + 1) ≤ (2 : ℚ) ^ e := by
      apply zpow_le_zpow_right₀ (by norm_num : (1 : ℚ) ≤ 2)
      omega
    linarith

theorem qexp_scale {c a b : Nat} (hc : 1 ≤ c) (ha : 1 ≤ a) (hb : 1 ≤ b) :
    qexp (c * a) (c * b) = qexp a b := by
  have h1 := qexp_spec (a := c * a) (b := c * b)
    (Nat.mul_pos (by omega) (by omega)) (Nat.mul_pos (by omega) (by omega))
  have h2 := qexp_spec ha hb
  have heq : ((c * a : Nat) : ℚ) / ((c * b : Nat) : ℚ) = (a : ℚ) / b := by
    push_cast
    rw [mul_div_mul_left _ _ (by exact_mod_cast (by omega : ¬ c = 0) : (c : ℚ) ≠ 0)]
  rw [heq] at h1
  exact zpow_interval_unique h1.1 h1.2 h2.1 h2.2

theorem roundPair_scale {c a b : Nat} (hc : 1 ≤ c) (ha : 1 ≤ a) (hb : 1 ≤ b) :
    roundPair (c * a) (c * b) = roundPair a b := by
  have hq := qexp_scale hc ha hb
  by_cases he : qexp a b ≤ 52
  · rw [roundPair_eq_of_le he, roundPair_eq_of_le (by rw [hq]; exact he), hq]
    have harg : c * a * 2 ^ (52 - qexp a b).toNat
        = c * (a * 2 ^ (52 - qexp a b).toNat) := by ring
    rw [harg, rhe_scale hc]
  · rw [roundPair_eq_of_gt he, roundPair_eq_of_gt (by rw [hq]; exact he), hq]
    have harg : c * b * 2 ^ (qexp a b - 52).toNat
        = c * (b * 2 ^ (qexp a b - 52).toNat) := by ring
    rw [harg, rhe_scale hc]

theorem roundPair_cross {s m k l : Nat} (hm : 1 ≤ m) (hs : 1 ≤ s)
    (hl : 1 ≤ l) (hk : 1 ≤ k) (hcross : s * l = k * m) :
    roundPair s m = roundPair k l := by
  have h1 : roundPair (l * s) (l * m) = roundPair s m := roundPair_scale hl hs hm
  have h2 : roundPair (m * k) (m * l) = roundPair k l := roundPair_scale hm hk hl
  rw [← h1, ← h2, show l * s = m * k by
    rw [Nat.mul_comm l s, Nat.mul_comm m k]; exact hcross, Nat.mul_comm l m]

theorem rescale_congr_255 {s m k : Nat} (hm : 1 ≤ m) (hs : 1 ≤ s)
    (hcross : s * 255 = k * m) : rescale s m = rescale k 255 := by
  have hk : 1 ≤ k := by
    rcases Nat.eq_zero_or_pos k with h0 | h1
    · subst h0
      omega
    · exact h1
  have hrp : roundPair s m = roundPair k 255 :=
    roundPair_cross hm hs (by omega) hk hcross
  unfold rescale
  rw [if_neg (by omega : ¬ m = 0), if_neg (by omega : ¬ s = 0),
    if_neg (by omega : ¬ (255 : Nat) = 0), if_neg (by omega : ¬ k = 0), hrp]

theorem rescale_at_255 : ∀ k : Nat, k ≤ 255 → rescale k 255 = k := by decide

theorem nat_div_of_qbounds {n d k : Nat} (hd : 1 ≤ d)
    (h1 : (k : ℚ) ≤ (n : ℚ) / d) (h2 : (n : ℚ) / d < (k : ℚ) + 1) :
    n / d = k := by
  have hdq : (0 : ℚ) < d := by exact_mod_cast hd
  have ha : k * d ≤ n := by
    have hq := (le_div_iff hdq).mp h1
    exact_mod_cast hq
  have hb : n < (k + 1) * d := by
    have hq := (div_lt_iff hdq).mp h2
    exact_mod_cast hq
  exact Nat.div_eq_of_lt_le ha hb

theorem pairVal_of_le {a b : Nat} (he : qexp a b ≤ 52) :
    pairVal (roundPair a b)
      = ((roundPair a b).1 : ℚ) / 2 ^ (52 - qexp a b).toNat := by
  unfold pairVal
  rw [roundPair_exp]
  rw [show (qexp a b - 52 : Int) = -(((52 - qexp a b).toNat : Nat) : Int) by omega]
  rw [zpow_neg, zpow_natCast, div_eq_mul_inv]

theorem rescale_eq_exact {s m : Nat} (hm : 1 ≤ m) (hm2 : m ≤ 65535)
    (hs : s ≤ m) : rescale s m = 255 * s / m := by
  rcases Nat.eq_zero_or_pos s with hs0 | hs1
  · subst hs0
    unfold rescale
    rw [if_neg (by omega : ¬ m = 0), if_pos rfl]
    simp
  by_cases hdvd : m ∣ 255 * s
  · have hk : 255 * s = 255 * s / m * m := (Nat.div_mul_cancel hdvd).symm
    have hcross : s * 255 = 255 * s / m * m := by
      rw [Nat.mul_comm]
      exact hk
    have hk255 : 255 * s / m ≤ 255 := by
      have h1 : 255 * s / m * m ≤ 255 * m := by
        rw [← hk]
        exact Nat.mul_le_mul_left 255 hs
      exact Nat.le_of_mul_le_mul_right h1 (by omega)
    rw [rescale_congr_255 hm hs1 hcross]
    exact rescale_at_255 _ hk255
  · -- general position: one rounding error cannot cross an integer boundary
    have hmq : (0 : ℚ) < m := by exact_mod_cast hm
    have hsq : (0 : ℚ) < s := by exact_mod_cast hs1
    have hspec1 := qexp_spec hs1 hm
    have hd1pos : 1 ≤ (roundPair s m).1 := roundPair_sig_pos hs1 hm
    have herr1 := roundPair_err hs1 hm
    set x : ℚ := (s : ℚ) / m with hxdef
    have hx0 : 0 < x := by positivity
    have hx1 : x ≤ 1 := by
      rw [hxdef, div_le_one hmq]
      exact_mod_cast hs
    have he1 : qexp s m ≤ 0 := by
      by_contra hcon
      push_neg at hcon
      have hgt : (1 : ℚ) < (2 : ℚ) ^ qexp s m := by
        calc (1 : ℚ) = (2 : ℚ) ^ (0 : ℤ) := (zpow_zero 2).symm
          _ < (2 : ℚ) ^ qexp s m := by
              apply zpow_lt_zpow_right₀ (by norm_num : (1 : ℚ) < 2)
              omega
      linarith [hspec1.1]
    have hval1 := pairVal_of_le (a := s) (b := m) (by omega)
    set t : Nat := (52 - qexp s m).toNat with htdef
    set d1 : Nat := (roundPair s m).1 with hd1def
    set v1 : ℚ := (d1 : ℚ) / 2 ^ t with hv1def
    rw [hval1] at herr1
    have hargs1 : 1 ≤ 255 * d1 := by omega
    have hargs2 : 1 ≤ 2 ^ t := Nat.pos_pow_of_pos _ (by omega)
    have herr2 := roundPair_err hargs1 hargs2
    have hspec2 := qexp_spec hargs1 hargs2
    have hy : ((255 * d1 : Nat) : ℚ) / ((2 ^ t : Nat) : ℚ) = 255 * v1 := by
      push_cast
      rw [hv1def]
      ring
    rw [hy] at herr2 hspec2
    set p2 := roundPair (255 * d1) (2 ^ t) with hp2def
    -- interval bounds from the two rounding errors
    have hsmall : (1 : ℚ) / 2 ^ 53 ≤ 1 := by norm_num
    have hb1 := abs_le.mp herr1
    have hb2 := abs_le.mp herr2
    have hxu : x / 2 ^ 53 ≤ 1 / 2 ^ 53 :=
      (div_le_div_right (by norm_num : (0 : ℚ) < 2 ^ 53)).mpr hx1
    have hv1le : v1 ≤ x + 1 / 2 ^ 53 := by linarith
    have hv1ge : x - 1 / 2 ^ 53 ≤ v1 := by linarith
    have hv1le2 : v1 ≤ 2 := by linarith
    have hyle : 255 * v1 ≤ 510 := by linarith
    have hy53 : (255 * v1) / 2 ^ 53 ≤ 510 / 2 ^ 53 :=
      (div_le_div_right (by norm_num : (0 : ℚ) < 2 ^ 53)).mpr hyle
    have hV2hi : pairVal p2 ≤ 255 * x + 765 / 2 ^ 53 := by linarith
    have hV2lo : 255 * x - 765 / 2 ^ 53 ≤ pairVal p2 := by linarith
    -- the exact value sits strictly between k and k + 1
    set k : Nat := 255 * s / m with hkdef
    set r : Nat := 255 * s % m with hrdef
    have hmod := Nat.div_add_mod (255 * s) m
    have hr1 : 1 ≤ r := by
      rcases Nat.eq_zero_or_pos r with h0 | h1
      · exact absurd (Nat.dvd_of_mod_eq_zero h0) hdvd
      · exact h1
    have hrm : r < m := Nat.mod_lt _ (by omega)
    have hxsplit : 255 * x = (k : ℚ) + (r : ℚ) / m := by
      rw [hxdef]
      have hcast : (255 : ℚ) * s = (m : ℚ) * k + r := by exact_mod_cast hmod.symm
      rw [show (255 : ℚ) * ((s : ℚ) / m) = ((255 : ℚ) * s) / m by ring, hcast]
      field_simp
      ring
    have hmlo : (1 : ℚ) / 65535 ≤ 1 / m :=
      one_div_le_one_div_of_le hmq (by exact_mod_cast hm2)
    have hrmlo : (1 : ℚ) / 65535 ≤ (r : ℚ) / m := by
      have h1 : (1 : ℚ) / m ≤ (r : ℚ) / m :=
        (div_le_div_right hmq).mpr (by exact_mod_cast hr1)
      linarith
    have hrmhi : (r : ℚ) / m ≤ 1 - 1 / m := by
      have h1 : (r : ℚ) ≤ (m : ℚ) - 1 := by
        have h2 : (r : ℚ) + 1 ≤ m := by exact_mod_cast hrm
        linarith
      have h2 : (r : ℚ) / m ≤ ((m : ℚ) - 1) / m :=
        (div_le_div_right hmq).mpr h1
      have h3 : ((m : ℚ) - 1) / m = 1 - 1 / m := by field_simp
      linarith
    have hgap : (765 : ℚ) / 2 ^ 53 < 1 / 65535 := by norm_num
    have hklt : (k : ℚ) < pairVal p2 := by linarith
    have hklt1 : pairVal p2 < (k : ℚ) + 1 := by linarith
    -- the second exponent is far below 52
    have he2lt : qexp (255 * d1) (2 ^ t) < 52 := by
      by_contra hcon
      push_neg at hcon
      have h2 : (2 : ℚ) ^ (52 : ℤ) ≤ (2 : ℚ) ^ (qexp (255 * d1) (2 ^ t)) := by
        apply zpow_le_zpow_right₀ (by norm_num : (1 : ℚ) ≤ 2)
        omega
      have h3 : (510 : ℚ) < (2 : ℚ) ^ (52 : ℤ) := by
        rw [show ((52 : ℤ)) = ((52 : ℕ) : ℤ) by rfl, zpow_natCast]
        norm_num
      linarith [hspec2.1]
    have hval2 := pairVal_of_le (a := 255 * d1) (b := 2 ^ t) (by omega)
    set t2 : Nat := (52 - qexp (255 * d1) (2 ^ t)).toNat with ht2def
    have hc2 : ((2 ^ t2 : Nat) : ℚ) = (2 : ℚ) ^ t2 := by push_cast; rfl
    have hdiv : p2.1 / 2 ^ t2 = k := by
      apply nat_div_of_qbounds (Nat.pos_pow_of_pos _ (by omega))
      · rw [hc2, ← hval2]
        exact le_of_lt hklt
      · rw [hc2, ← hval2]
        exact hklt1
    have hk255 : k ≤ 255 := by
      rw [hkdef]
      calc 255 * s / m ≤ 255 * m / m :=
            Nat.div_le_div_right (Nat.mul_le_mul_left _ hs)
        _ = 255 := Nat.mul_div_cancel _ (by omega)
    -- assemble
    unfold rescale
    rw [if_neg (by omega : ¬ m = 0), if_neg (by omega : ¬ s = 0)]
    dsimp only
    rw [if_neg (show ¬ (52 : Int) ≤ (roundPair s m).2 by rw [roundPair_exp]; omega)]
    rw [roundPair_exp]
    rw [← hd1def, ← htdef, ← hp2def]
    have hp22 : p2.2 = qexp (255 * d1) (2 ^ t) := by
      rw [hp2def]
      exact roundPair_exp _ _
    unfold pair_to_u8
    rw [hp22]
    rw [if_neg (by omega : ¬ (52 : Int) ≤ qexp (255 * d1) (2 ^ t))]
    rw [← ht2def, hdiv]
    exact min_eq_right hk255

/-! ### The claims -/

/-- C1: for every decoded pixel channel with raw sample `s` in `0..=maxval`,
the output byte equals `floor(s / maxval * 255)` computed with exact real
division and truncation toward zero, bit-for-bit, in both the 1-byte-sample
and the 2-byte big-endian-sample conversion functions. -/
theorem claim_C1 (s m : Nat) (h1 : 1 ≤ m) (h2 : m ≤ 65535) (h3 : s ≤ m) :
    convert_u8_maxval_color s m = 255 * s / m ∧
      convert_u16_maxval_color s m = 255 * s / m :=
  ⟨rescale_eq_exact h1 h2 h3, rescale_eq_exact h1 h2 h3⟩

/-- Witness for C1 at `s = 77`, `maxval = 300` (a 2-byte maxval with a
non-trivial quotient). -/
theorem claim_C1_witness :
    (1 ≤ 300 ∧ 300 ≤ 65535 ∧ 77 ≤ 300) ∧
      convert_u8_maxval_color 77 300 = 255 * 77 / 300 ∧
      convert_u16_maxval_color 77 300 = 255 * 77 / 300 :=
  ⟨by decide, claim_C1 77 300 (by decide) (by decide) (by decide)⟩

/-- C2 counterexample: the buffer `"htre4 "` has a whitespace-terminated
first token different from `P6`, yet parsing fails with `WidthNotFound`
(no width token follows), not `FormatNotSupported` - the source checks the
format token only after the whole header has parsed. -/
theorem claim_C2_counterexample :
    (get_content_start_index [104, 116, 114, 101, 52, 32] 0 = some 0 ∧
      get_content_end_index [104, 116, 114, 101, 52, 32] 0 = some 5 ∧
      is_ws ([104, 116, 114, 101, 52, 32].getD 5 0) = true ∧
      byte_slice [104, 116, 114, 101, 52, 32] 0 5 ≠ [80, 54]) ∧
    parse_ppm_file [104, 116, 114, 101, 52, 32] = .error .WidthNotFound ∧
    ImagesFromPpmFileError.WidthNotFound ≠ .FormatNotSupported := by
  refine ⟨by decide, by decide, by decide⟩

/-- C2 (amended): for every buffer whose whole header (width, height, maxval
and its trailing whitespace) parses successfully and whose format token is
not the literal `P6`, parsing fails with `FormatNotSupported`. -/
theorem claim_C2_amended (fc fmt : List Nat) (w h size mv ds : Nat)
    (hh : parse_header fc = .ok (fmt, w, h, size, mv, ds))
    (hfmt : fmt ≠ [80, 54]) :
    parse_image fc = .error .FormatNotSupported ∧
      parse_ppm_file fc = .error .FormatNotSupported := by
  have himg : parse_image fc = .error .FormatNotSupported := by
    unfold parse_image
    rw [hh]
    dsimp only
    rw [if_neg hfmt]
  refine ⟨himg, ?_⟩
  have hne : fc ≠ [] := by
    intro hnil
    subst hnil
    rw [show parse_header ([] : List Nat) = .error .FormatNotFound from rfl] at hh
    exact Except.noConfusion hh
  unfold parse_ppm_file
  rw [if_neg (by simp [List.isEmpty_iff, hne])]
  have hloop : parse_ppm_loop fc (fc.length + 1) 0 []
      = some (.error .FormatNotSupported) := by
    simp only [parse_ppm_loop]
    rw [if_pos (List.length_pos.mpr hne), List.drop_zero, himg]
  rw [hloop]

/-- Witness for the amended C2 on `"AB 1 1 255 "` followed by three pixel
bytes. -/
theorem claim_C2_amended_witness :
    parse_image [65, 66, 32, 49, 32, 49, 32, 50, 53, 53, 32, 1, 2, 3]
        = .error .FormatNotSupported ∧
      parse_ppm_file [65, 66, 32, 49, 32, 49, 32, 50, 53, 53, 32, 1, 2, 3]
        = .error .FormatNotSupported :=
  claim_C2_amended [65, 66, 32, 49, 32, 49, 32, 50, 53, 53, 32, 1, 2, 3]
    [65, 66] 1 1 1 255 11 (by decide) (by decide)

/-- C3: with `maxval = 255` the normalization is the identity - every
1-byte sample decodes to itself. -/
theorem claim_C3 (s : Nat) (h : s ≤ 255) : convert_u8_maxval_color s 255 = s := by
  have heq := rescale_eq_exact (m := 255) (by omega) (by omega) h
  unfold convert_u8_maxval_color
  rw [heq]
  exact Nat.mul_div_cancel_left s (by omega)

/-- Witness for C3 at `s = 7`. -/
theorem claim_C3_witness : 7 ≤ 255 ∧ convert_u8_maxval_color 7 255 = 7 :=
  ⟨by decide, claim_C3 7 (by decide)⟩

/-- C4: a buffer holding a single valid P6 image (the image's bytes parse
consuming `n` bytes and only whitespace or comments follow) decodes to a
one-element sequence whose image records the header's width and height, has
exactly `width * height` pixels, and gives every pixel alpha 0. -/
theorem claim_C4 (fc fmt : List Nat) (w h size mv ds n : Nat) (img : Image)
    (hh : parse_header fc = .ok (fmt, w, h, size, mv, ds))
    (hp : parse_image fc = .ok (n, img))
    (hend : get_content_start_index fc n = none) :
    parse_ppm_file fc = .ok [img] ∧ img.width = w ∧ img.height = h ∧
      img.data.length = w * h ∧ ∀ p ∈ img.data, p.rgba.a = 0 := by
  rcases parse_image_fields hh hp with ⟨h1, h2, h3, h4⟩
  exact ⟨parse_ppm_single hp hend, h1, h2, h3, h4⟩

/-- Witness for C4 on `"P6 2 1 255 "` followed by six pixel bytes. -/
theorem claim_C4_witness :
    parse_ppm_file [80, 54, 32, 50, 32, 49, 32, 50, 53, 53, 32,
        10, 20, 30, 40, 50, 60]
      = .ok [Image.new 2 1 [⟨⟨10, 20, 30, 0⟩⟩, ⟨⟨40, 50, 60, 0⟩⟩]] ∧
    (Image.new 2 1 [⟨⟨10, 20, 30, 0⟩⟩, ⟨⟨40, 50, 60, 0⟩⟩]).width = 2 ∧
    (Image.new 2 1 [⟨⟨10, 20, 30, 0⟩⟩, ⟨⟨40, 50, 60, 0⟩⟩]).height = 1 ∧
    (Image.new 2 1 [⟨⟨10, 20, 30, 0⟩⟩, ⟨⟨40, 50, 60, 0⟩⟩]).data.length = 2 * 1 ∧
    ∀ p ∈ (Image.new 2 1 [⟨⟨10, 20, 30, 0⟩⟩, ⟨⟨40, 50, 60, 0⟩⟩]).data,
      p.rgba.a = 0 :=
  claim_C4 [80, 54, 32, 50, 32, 49, 32, 50, 53, 53, 32, 10, 20, 30, 40, 50, 60]
    [80, 54] 2 1 2 255 11 17 (Image.new 2 1 [⟨⟨10, 20, 30, 0⟩⟩, ⟨⟨40, 50, 60, 0⟩⟩])
    (by decide) (by decide) (by decide)

/-- C5: a buffer made of two back-to-back valid P6 images decodes to the
two-element sequence of exactly the images that each half decodes to on its
own. -/
theorem claim_C5 (b1 b2 : List Nat) (img1 img2 : Image)
    (h1 : parse_image b1 = .ok (b1.length, img1))
    (h2 : parse_image b2 = .ok (b2.length, img2))
    (hstart : get_content_start_index b2 0 = some 0) :
    parse_ppm_file (b1 ++ b2) = .ok [img1, img2] ∧
      parse_ppm_file b1 = .ok [img1] ∧ parse_ppm_file b2 = .ok [img2] := by
  refine ⟨parse_ppm_two h1 h2 hstart, ?_, ?_⟩
  · exact parse_ppm_single h1 (gcs_none_of_le (Nat.le_refl _))
  · exact parse_ppm_single h2 (gcs_none_of_le (Nat.le_refl _))

/-- Witness for C5 on two concatenated `"P6 1 1 255 "` images. -/
theorem claim_C5_witness :
    parse_ppm_file ([80, 54, 32, 49, 32, 49, 32, 50, 53, 53, 32, 1, 2, 3]
        ++ [80, 54, 32, 49, 32, 49, 32, 50, 53, 53, 32, 4, 5, 6])
      = .ok [Image.new 1 1 [⟨⟨1, 2, 3, 0⟩⟩], Image.new 1 1 [⟨⟨4, 5, 6, 0⟩⟩]] ∧
    parse_ppm_file [80, 54, 32, 49, 32, 49, 32, 50, 53, 53, 32, 1, 2, 3]
      = .ok [Image.new 1 1 [⟨⟨1, 2, 3, 0⟩⟩]] ∧
    parse_ppm_file [80, 54, 32, 49, 32, 49, 32, 50, 53, 53, 32, 4, 5, 6]
      = .ok [Image.new 1 1 [⟨⟨4, 5, 6, 0⟩⟩]] :=
  claim_C5 [80, 54, 32, 49, 32, 49, 32, 50, 53, 53, 32, 1, 2, 3]
    [80, 54, 32, 49, 32, 49, 32, 50, 53, 53, 32, 4, 5, 6]
    (Image.new 1 1 [⟨⟨1, 2, 3, 0⟩⟩]) (Image.new 1 1 [⟨⟨4, 5, 6, 0⟩⟩])
    (by decide) (by decide) (by decide)

/-- The 29-byte buffer `"P6 6148914691236517206 1 255 "`: its width times
height fits in `usize` but `size * 3` overflows. -/
def overflow_header : List Nat :=
  [80, 54, 32, 54, 49, 52, 56, 57, 49, 52, 54, 57, 49, 50, 51, 54, 53, 49,
    55, 50, 48, 54, 32, 49, 32, 50, 53, 53, 32]

/-- C6 counterexample: on `"P6 6148914691236517206 1 255 "` zero pixel bytes
remain (fewer than the required `size * 3 * 1`), yet parsing fails with
`FailedToAllocateImageData`, not `LessThanSizePixelsFoundInFile`: the
pixel-buffer reservation of `size * 4` bytes exceeds `isize::MAX`, so
`try_reserve_exact` fails deterministically with `CapacityOverflow` before
either the byte-count multiplication or the length comparison is reached. -/
theorem claim_C6_counterexample :
    parse_header overflow_header
      = .ok ([80, 54], 6148914691236517206, 1, 6148914691236517206, 255, 29) ∧
    overflow_header.length = 29 ∧
    (overflow_header.length - 29 : Nat)
      < 6148914691236517206 * 3 * (if (255 : Nat) < 256 then 1 else 2) ∧
    parse_ppm_file overflow_header = .error .FailedToAllocateImageData ∧
    ImagesFromPpmFileError.FailedToAllocateImageData
      ≠ ImagesFromPpmFileError.LessThanSizePixelsFoundInFile := by
  refine ⟨by decide, by decide, by decide, by decide, by decide⟩

/-- C6 (amended): the per-channel sample width is 1 byte for `maxval < 256`
and 2 bytes otherwise; whenever the pixel-buffer reservation of `size * 4`
bytes stays within `isize::MAX` (so `try_reserve_exact` does not fail with
`CapacityOverflow`) and the remaining buffer is shorter than the required
`size * 3 * sampleWidth` bytes, decoding fails with
`LessThanSizePixelsFoundInFile` (and no partial image is returned, the
result being an error).  Under that reservation bound `size < 2 ^ 61`, so
`size * 3 * sampleWidth ≤ size * 6 < 2 ^ 64` and the checked byte-count
multiplication never overflows. -/
theorem claim_C6_amended (raw : List Nat) (w h size mv : Nat)
    (halloc : size * 4 ≤ isizeMax)
    (hlen : raw.length < size * 3 * (if mv < 256 then 1 else 2)) :
    read_image raw w h size mv = .error .LessThanSizePixelsFoundInFile :=
  read_image_insufficient halloc hlen

/-- Witness for the amended C6: one pixel requires 3 bytes at `maxval = 255`
but only 2 are present, and 6 bytes at `maxval = 256` but only 5 are
present. -/
theorem claim_C6_amended_witness :
    (1 * 4 ≤ isizeMax ∧
      [1, 2].length < 1 * 3 * (if (255 : Nat) < 256 then 1 else 2)) ∧
    read_image [1, 2] 1 1 1 255 = .error .LessThanSizePixelsFoundInFile ∧
    read_image [1, 2, 3, 4, 5] 1 1 1 256
      = .error .LessThanSizePixelsFoundInFile :=
  ⟨by decide, claim_C6_amended [1, 2] 1 1 1 255 (by decide) (by decide),
    claim_C6_amended [1, 2, 3, 4, 5] 1 1 1 256 (by decide) (by decide)⟩

/-- C7: a buffer that is empty or contains only whitespace bytes and
`#`-to-end-of-line comment runs parses to the `FormatNotFound` error, never
to an empty successful sequence. -/
theorem claim_C7 (fc : List Nat) (hws : ws_comment_only fc false = true) :
    parse_ppm_file fc = .error .FormatNotFound := by
  cases fc with
  | nil => rfl
  | cons b rest =>
    have hgcs : get_content_start_index (b :: rest) 0 = none := by
      exact gcs_loop_none_of_wsco (by simpa using hws)
    have himg : parse_image (b :: rest) = .error .FormatNotFound := by
      unfold parse_image parse_header
      rw [hgcs]
    unfold parse_ppm_file
    rw [if_neg (by simp)]
    have hloop : parse_ppm_loop (b :: rest) ((b :: rest).length + 1) 0 []
        = some (.error .FormatNotFound) := by
      simp only [parse_ppm_loop]
      rw [if_pos (by simp), List.drop_zero, himg]
    rw [hloop]

/-- Witness for C7 on `"  #hi"` (whitespace then an unterminated comment). -/
theorem claim_C7_witness :
    ws_comment_only [32, 32, 35, 104, 105] false = true ∧
      parse_ppm_file [32, 32, 35, 104, 105] = .error .FormatNotFound :=
  ⟨by decide, claim_C7 [32, 32, 35, 104, 105] (by decide)⟩

/-- C8: a successful multi-image parse always returns at least one image, so
the single-image accessor never meets an empty list and its panic branch
(modelled as the `none` result of `ppm_first_image`) is unreachable. -/
theorem claim_C8 (fc : List Nat) :
    (∀ images, parse_ppm_file fc = .ok images → images ≠ []) ∧
      ppm_first_image fc ≠ none := by
  have hmain : ∀ images, parse_ppm_file fc = .ok images → images ≠ [] := by
    intro images hok
    unfold parse_ppm_file at hok
    split at hok
    · exact Except.noConfusion hok
    · rename_i hne
      split at hok
      · rename_i r hr
        subst hok
        apply parse_ppm_loop_ok_ne_nil hr
        right
        simp only [List.isEmpty_iff] at hne
        exact List.length_pos.mpr hne
      · exact Except.noConfusion hok
  refine ⟨hmain, ?_⟩
  unfold ppm_first_image
  split
  · simp
  · rename_i images hok
    split
    · simp
    · rename_i hhead
      exfalso
      have hne2 := hmain images hok
      rw [List.head?_eq_none_iff] at hhead
      exact hne2 hhead

/-- Witness for C8 on the empty buffer. -/
theorem claim_C8_witness :
    (∀ images, parse_ppm_file [] = .ok images → images ≠ []) ∧
      ppm_first_image [] ≠ none :=
  claim_C8 []

/-- C9: the multi-image driver terminates on every finite buffer - the
cursor strictly advances past each consumed image, so the fuelled loop run
with `length + 1` units of fuel always produces a definite result. -/
theorem claim_C9 (fc : List Nat) :
    ∃ r, parse_ppm_loop fc (fc.length + 1) 0 [] = some r := by
  cases hr : parse_ppm_loop fc (fc.length + 1) 0 [] with
  | some r => exact ⟨r, rfl⟩
  | none => exact absurd hr (parse_ppm_loop_total (by omega))

/-- Witness for C9 on a one-byte buffer. -/
theorem claim_C9_witness :
    ∃ r, parse_ppm_loop [80] ([80].length + 1) 0 [] = some r :=
  claim_C9 [80]

/-- C10: a P6 header whose width or height is zero parses successfully: the
decoder consumes zero payload bytes, and the resulting image keeps the
declared width and height with an empty pixel buffer; when nothing follows
the header separator the whole parse returns that single image. -/
theorem claim_C10 (fc fmt : List Nat) (w h size mv ds : Nat)
    (hh : parse_header fc = .ok (fmt, w, h, size, mv, ds))
    (hfmt : fmt = [80, 54]) (hwh : w * h = 0) :
    parse_image fc = .ok (ds, Image.new w h []) ∧
      (ds = fc.length → parse_ppm_file fc = .ok [Image.new w h []]) := by
  have hsize : size = w * h := (parse_header_ok hh).2.2.1
  have himg : parse_image fc = .ok (ds, Image.new w h []) := by
    unfold parse_image
    rw [hh]
    dsimp only
    rw [if_pos hfmt, hsize, hwh, read_image_size_zero]
    simp
  refine ⟨himg, fun hds => parse_ppm_single himg ?_⟩
  exact gcs_none_of_le (by omega)

/-- Witness for C10 on `"P6 0 4 255 "` (width 0, no payload bytes at all). -/
theorem claim_C10_witness :
    (0 * 4 = 0) ∧
      parse_image [80, 54, 32, 48, 32, 52, 32, 50, 53, 53, 32]
        = .ok (11, Image.new 0 4 []) ∧
      parse_ppm_file [80, 54, 32, 48, 32, 52, 32, 50, 53, 53, 32]
        = .ok [Image.new 0 4 []] := by
  have hmain := claim_C10 [80, 54, 32, 48, 32, 52, 32, 50, 53, 53, 32]
    [80, 54] 0 4 0 255 11 (by decide) (by decide) (by decide)
  exact ⟨by decide, hmain.1, hmain.2 (by decide)⟩
